import Mathlib

/-!
Verification development for the animated-plantuml repository.

The development shallowly embeds the two core source files:

* `plantuml-parser.js` — `PlantUMLParser`: `parse`, `parseObjectDefinition`,
  `parseConnection`, `addObject`, `addConnection`, `getArrowStyle`,
  `autoLayout`.  The parser works by JavaScript regular-expression matching,
  so the embedding contains a small backtracking regex engine
  (ordered alternation, greedy single-character-class repetition, capture
  groups, leftmost-match search) mirroring the ECMAScript semantics of the
  pattern subset the parser uses.

* `animation-system.js` — `AnimationSystem`: `buildFlowGraph`,
  `animateFlow` (its visit structure), `findPath`, `previewPath`,
  `stopAnimation`.

JavaScript strings are modelled as `List Char`, JS `Map`s as ordered
association lists, numbers as `ℚ` where fractional arithmetic occurs and as
`Nat` where the source only performs counting.  `null`/`undefined` is
modelled with `Option`; the one throwing operation reachable from `parse`
(`name.length` on a possibly-undefined `name` in `addObject`) is modelled
with `Except`.
-/

/-! ## JavaScript string and map scaffolding -/

/-- A JavaScript string, modelled as its list of characters. -/
abbrev JsStr := List Char

/-- `a || b` on JS strings (with `undefined` as `none`): an empty string is
falsy, so it falls through to `b`. -/
def jsOr (a b : Option JsStr) : Option JsStr :=
  match a with
  | some s => if s = [] then b else some s
  | none => b

/-- Truthiness of a possibly-undefined JS string: defined and non-empty. -/
def jsTruthy (a : Option JsStr) : Bool :=
  match a with
  | some s => s ≠ []
  | none => false

/-! ## The flow graph (`animation-system.js`, `buildFlowGraph`)

`this.flowGraph` is a JS `Map` from a connection's `from` field to the
ordered list of outgoing `{to, connectionId, label}` records.  The map is
modelled as an insertion-ordered association list; the key type is kept
generic (`α`) because the traversal code only ever compares keys for
equality — in the application `α` is `Option JsStr`, `none` being the
`null` key produced by command markers. -/

/-- One entry of an adjacency list: `{to, connectionId, label}`. -/
structure FlowEdge (α : Type) where
  eto : α
  connectionId : JsStr
  label : JsStr
deriving DecidableEq, Repr

/-- The flow graph: a JS `Map` as an insertion-ordered association list. -/
abbrev FlowGraph (α : Type) := List (α × List (FlowEdge α))

variable {α : Type} [DecidableEq α]

/-- `Map.get`, returning `none` when the key is absent. -/
def fgFind? (g : FlowGraph α) (k : α) : Option (List (FlowEdge α)) :=
  (g.find? (fun p => p.1 = k)).map (fun p => p.2)

/-- `this.flowGraph.get(objectId) || []`. -/
def fgGet (g : FlowGraph α) (k : α) : List (FlowEdge α) :=
  (fgFind? g k).getD []

/-- `Map.set`: overwrite the value at an existing key in place, else append. -/
def fgSet (g : FlowGraph α) (k : α) (v : List (FlowEdge α)) : FlowGraph α :=
  match g with
  | [] => [(k, v)]
  | p :: rest => if p.1 = k then (k, v) :: rest else p :: fgSet rest k v

/-- All nodes mentioned by the graph: keys and edge targets. -/
def fgNodes (g : FlowGraph α) : Finset α :=
  (g.map Prod.fst).toFinset ∪ (g.flatMap (fun p => p.2.map (fun e => e.eto))).toFinset

theorem fgGet_mem_key {g : FlowGraph α} {k : α} {e : FlowEdge α}
    (he : e ∈ fgGet g k) : k ∈ fgNodes g := by
  unfold fgGet fgFind? at he
  cases hf : g.find? (fun p => p.1 = k) with
  | none => simp [hf] at he
  | some p =>
    have hmem := List.mem_of_find?_eq_some hf
    have hkey := List.find?_some hf
    have hk : p.1 = k := by simpa using hkey
    unfold fgNodes
    refine Finset.mem_union_left _ ?_
    rw [List.mem_toFinset]
    exact hk ▸ List.mem_map_of_mem Prod.fst hmem

theorem sdiff_insert_card_lt {s : Finset α} {v : List α} {a : α}
    (ha : a ∈ s) (hv : a ∉ v) :
    (s \ (a :: v).toFinset).card < (s \ v.toFinset).card := by
  have h1 : (a :: v).toFinset = insert a v.toFinset := by simp
  rw [h1, Finset.sdiff_insert]
  exact Finset.card_erase_lt_of_mem (Finset.mem_sdiff.mpr ⟨ha, by simpa using hv⟩)

/-! ## `animateFlow` visit structure (`animation-system.js` lines 70–110)

`animateFlow(objectId, visitedObjects)` returns immediately when
`visitedObjects.has(objectId)`; otherwise it adds `objectId` to the set,
highlights `objectId`, and for each outgoing connection (in adjacency
order) animates the connection and recurses into its target with a fresh
copy `new Set(visitedObjects)` of the set.  `animateFlowVisits` captures
the sequence of objects highlighted by an uncancelled run
(`this.isAnimating` stays `true` throughout): the per-path visited set is
threaded by value exactly as in the source.  That Lean accepts the
definition is the termination argument: the measure is the number of graph
nodes not yet in the visited set. -/

def animateFlowVisits (g : FlowGraph α) (objectId : α) (visited : List α) : List α :=
  if objectId ∈ visited then []
  else
    let visited' := objectId :: visited
    objectId ::
      ((fgGet g objectId).attach.map
        (fun e => animateFlowVisits g e.1.eto visited')).flatten
termination_by (fgNodes g \ visited.toFinset).card
decreasing_by
  exact sdiff_insert_card_lt (fgGet_mem_key e.2) (by assumption)

/-- Devolved form of the recursion used for proofs below. -/
theorem animateFlowVisits_eq (g : FlowGraph α) (objectId : α) (visited : List α) :
    animateFlowVisits g objectId visited =
      if objectId ∈ visited then []
      else objectId ::
        ((fgGet g objectId).attach.map
          (fun e => animateFlowVisits g e.1.eto (objectId :: visited))).flatten := by
  rw [animateFlowVisits]

/-- Along a single path, a node already in the visited set is never visited
again: every node reported by `animateFlowVisits` is outside the visited
set it was started with. -/
theorem animateFlowVisits_fresh (g : FlowGraph α) (objectId : α) (visited : List α) :
    ∀ n ∈ animateFlowVisits g objectId visited, n ∉ visited := by
  induction objectId, visited using animateFlowVisits.induct g with
  | case1 objectId visited hmem =>
    rw [animateFlowVisits_eq, if_pos hmem]
    intro n hn
    simp at hn
  | case2 objectId visited hmem v' ih =>
    rw [animateFlowVisits_eq, if_neg hmem]
    intro n hn
    rcases List.mem_cons.mp hn with h | h
    · exact h ▸ hmem
    · rw [List.mem_flatten] at h
      rcases h with ⟨l, hl, hnl⟩
      rw [List.mem_map] at hl
      rcases hl with ⟨e, _, hel⟩
      rw [← hel] at hnl
      have := ih e n hnl
      intro hnv
      exact this (List.mem_cons_of_mem _ hnv)

/-! ## `previewPath` (`animation-system.js` lines 510–525)

`previewPath(objectId)` runs a depth-first collection with a single
mutable `visited` set and a mutable `path` array shared across the whole
run; a node already seen anywhere is silently dropped.  Because every node
is added to `visited` and pushed onto `path` at the same moment, the run
is modelled by a function returning the list of *newly* visited nodes in
push order (`previewList g es v` processes the pending edge list `es`
against the current visited set `v`); the caller reassembles the shared
state, appending the delta in front of `v` for the next sibling. -/

theorem lex_of_le_of_lt {a a' b b' : Nat} (h1 : a' ≤ a) (h2 : b' < b) :
    Prod.Lex (fun x y => x < y) (fun x y => x < y) (a', b') (a, b) := by
  rcases Nat.lt_or_ge a' a with h | h
  · exact Prod.Lex.left _ _ h
  · have : a' = a := Nat.le_antisymm h1 h
    subst this
    exact Prod.Lex.right _ h2

theorem sdiff_card_le_of_subset {s : Finset α} {v w : List α}
    (h : ∀ x ∈ v, x ∈ w) :
    (s \ w.toFinset).card ≤ (s \ v.toFinset).card := by
  refine Finset.card_le_card (Finset.sdiff_subset_sdiff (le_refl s) ?_)
  intro x hx
  rw [List.mem_toFinset] at hx ⊢
  exact h x hx

theorem fgGet_eq_nil_of_not_node {g : FlowGraph α} {k : α}
    (h : k ∉ fgNodes g) : fgGet g k = [] := by
  cases hg : fgGet g k with
  | nil => rfl
  | cons e es => exact absurd (fgGet_mem_key (hg ▸ List.mem_cons_self e es)) h

theorem sdiff_cons_of_not_mem {s : Finset α} {v : List α} {a : α}
    (ha : a ∉ s) : s \ (a :: v).toFinset = s \ v.toFinset := by
  ext x
  simp only [Finset.mem_sdiff, List.toFinset_cons, Finset.mem_insert]
  constructor
  · rintro ⟨hx, hn⟩
    exact ⟨hx, fun hv => hn (Or.inr hv)⟩
  · rintro ⟨hx, hn⟩
    refine ⟨hx, fun hv => ?_⟩
    rcases hv with rfl | hv
    · exact ha hx
    · exact hn hv

def previewList (g : FlowGraph α) : List (FlowEdge α) → List α → List α
  | [], _ => []
  | e :: es, v =>
    if e.eto ∈ v then previewList g es v
    else
      let sub := e.eto :: previewList g (fgGet g e.eto) (e.eto :: v)
      sub ++ previewList g es (sub ++ v)
termination_by es v => ((fgNodes g \ v.toFinset).card, es.length)
decreasing_by
  · exact Prod.Lex.right _ (Nat.lt_succ_self _)
  · by_cases hn : e.eto ∈ fgNodes g
    · exact Prod.Lex.left _ _ (sdiff_insert_card_lt hn (by assumption))
    · rw [fgGet_eq_nil_of_not_node hn, sdiff_cons_of_not_mem hn]
      exact Prod.Lex.right _ (Nat.succ_pos _)
  · rename_i hnv
    refine lex_of_le_of_lt ?_ (Nat.lt_succ_self _)
    exact sdiff_card_le_of_subset
      (fun x hx => List.mem_cons_of_mem _ (List.mem_append_right _ hx))

/-- `previewPath(objectId)`: the shared visited set starts empty, so the
start node is always fresh: it is visited, pushed, and its outgoing edges
are processed against `visited = {objectId}`. -/
def previewPath (g : FlowGraph α) (objectId : α) : List α :=
  objectId :: previewList g (fgGet g objectId) [objectId]

theorem previewList_nil (g : FlowGraph α) (v : List α) :
    previewList g [] v = [] := by
  rw [previewList]

theorem previewList_cons (g : FlowGraph α) (e : FlowEdge α) (es : List (FlowEdge α))
    (v : List α) :
    previewList g (e :: es) v =
      if e.eto ∈ v then previewList g es v
      else
        let sub := e.eto :: previewList g (fgGet g e.eto) (e.eto :: v)
        sub ++ previewList g es (sub ++ v) := by
  rw [previewList]

/-- Every node collected by the DFS was not in the visited set it started
from (the global visited set silently drops already-seen nodes). -/
theorem previewList_fresh (g : FlowGraph α) :
    ∀ (es : List (FlowEdge α)) (v : List α), ∀ x ∈ previewList g es v, x ∉ v := by
  intro es v
  induction es, v using previewList.induct g with
  | case1 v => simp [previewList_nil]
  | case2 e es v hmem ih =>
    rw [previewList_cons, if_pos hmem]
    exact ih
  | case3 e es v hmem sub ih1 ih2 =>
    rw [previewList_cons, if_neg hmem]
    intro x hx
    simp only [List.mem_append, List.mem_cons] at hx
    rcases hx with (rfl | hx) | hx
    · exact hmem
    · intro hv
      exact ih1 x hx (List.mem_cons_of_mem _ hv)
    · intro hv
      exact ih2 x hx (List.mem_append_right _ hv)

/-- The collected delta has no duplicates. -/
theorem previewList_nodup (g : FlowGraph α) :
    ∀ (es : List (FlowEdge α)) (v : List α), (previewList g es v).Nodup := by
  intro es v
  induction es, v using previewList.induct g with
  | case1 v => simp [previewList_nil]
  | case2 e es v hmem ih =>
    rw [previewList_cons, if_pos hmem]
    exact ih
  | case3 e es v hmem sub ih1 ih2 =>
    rw [previewList_cons, if_neg hmem]
    rw [List.nodup_append]
    refine ⟨?_, ih2, ?_⟩
    · rw [List.nodup_cons]
      refine ⟨fun hc => ?_, ih1⟩
      exact previewList_fresh g _ _ e.eto hc (List.mem_cons_self _ _)
    · intro x hx hx2
      have := previewList_fresh g _ _ x hx2
      exact this (List.mem_append_left _ hx)

/-- Reachability along the flow graph's adjacency lists. -/
def FgReach (g : FlowGraph α) : α → α → Prop :=
  Relation.ReflTransGen (fun x y => ∃ e ∈ fgGet g x, e.eto = y)

/-- Everything the DFS collects is reachable from a pending edge target. -/
theorem previewList_sound (g : FlowGraph α) :
    ∀ (es : List (FlowEdge α)) (v : List α), ∀ x ∈ previewList g es v,
      ∃ e ∈ es, FgReach g e.eto x := by
  intro es v
  induction es, v using previewList.induct g with
  | case1 v => simp [previewList_nil]
  | case2 e es v hmem ih =>
    rw [previewList_cons, if_pos hmem]
    intro x hx
    rcases ih x hx with ⟨e', he', hr⟩
    exact ⟨e', List.mem_cons_of_mem _ he', hr⟩
  | case3 e es v hmem sub ih1 ih2 =>
    rw [previewList_cons, if_neg hmem]
    intro x hx
    simp only [List.mem_append, List.mem_cons] at hx
    rcases hx with (rfl | hx) | hx
    · exact ⟨e, List.mem_cons_self _ _, Relation.ReflTransGen.refl⟩
    · rcases ih1 x hx with ⟨e', he', hr⟩
      refine ⟨e, List.mem_cons_self _ _, Relation.ReflTransGen.head ⟨e', he', rfl⟩ hr⟩
    · rcases ih2 x hx with ⟨e', he', hr⟩
      exact ⟨e', List.mem_cons_of_mem _ he', hr⟩

/-- Every pending edge target ends up visited. -/
theorem previewList_processed (g : FlowGraph α) :
    ∀ (es : List (FlowEdge α)) (v : List α), ∀ e ∈ es,
      e.eto ∈ previewList g es v ++ v := by
  intro es v
  induction es, v using previewList.induct g with
  | case1 v => simp
  | case2 e es v hmem ih =>
    rw [previewList_cons, if_pos hmem]
    intro e' he'
    rcases List.mem_cons.mp he' with rfl | he'
    · exact List.mem_append_right _ hmem
    · exact ih e' he'
  | case3 e es v hmem sub ih1 ih2 =>
    have hsub : sub = e.eto :: previewList g (fgGet g e.eto) (e.eto :: v) := rfl
    rw [previewList_cons, if_neg hmem]
    intro e' he'
    rcases List.mem_cons.mp he' with rfl | he'
    · simp
    · have h2 := ih2 e' he'
      rw [hsub] at h2
      simp only [List.mem_append, List.mem_cons] at h2 ⊢
      tauto

/-- The visited delta is closed under adjacency, up to the ambient visited
set: a successor of a collected node is collected or was already visited. -/
theorem previewList_closed (g : FlowGraph α) :
    ∀ (es : List (FlowEdge α)) (v : List α), ∀ x ∈ previewList g es v,
      ∀ e ∈ fgGet g x, e.eto ∈ previewList g es v ++ v := by
  intro es v
  induction es, v using previewList.induct g with
  | case1 v => simp [previewList_nil]
  | case2 e es v hmem ih =>
    rw [previewList_cons, if_pos hmem]
    exact ih
  | case3 e es v hmem sub ih1 ih2 =>
    have hsub : sub = e.eto :: previewList g (fgGet g e.eto) (e.eto :: v) := rfl
    rw [previewList_cons, if_neg hmem]
    intro x hx e' he'
    simp only [List.mem_append, List.mem_cons] at hx ⊢
    rcases hx with (rfl | hx) | hx
    · have h := previewList_processed g (fgGet g e.eto) (e.eto :: v) e' he'
      simp only [List.mem_append, List.mem_cons] at h
      tauto
    · have h := ih1 x hx e' he'
      simp only [List.mem_append, List.mem_cons] at h
      tauto
    · have hx' : x ∈ previewList g es (sub ++ v) := hx
      have h := ih2 x hx' e' he'
      rw [hsub] at h
      simp only [List.mem_append, List.mem_cons] at h
      tauto

/-- `previewPath(objectId)` is exactly the set of nodes reachable from
`objectId` in the flow graph. -/
theorem previewPath_mem_iff_reach (g : FlowGraph α) (objectId : α) (x : α) :
    x ∈ previewPath g objectId ↔ FgReach g objectId x := by
  constructor
  · intro hx
    rcases List.mem_cons.mp hx with rfl | hx
    · exact Relation.ReflTransGen.refl
    · rcases previewList_sound g _ _ x hx with ⟨e, he, hr⟩
      exact Relation.ReflTransGen.head ⟨e, he, rfl⟩ hr
  · intro hr
    induction hr with
    | refl => exact List.mem_cons_self _ _
    | @tail b c hab hstep ih =>
      rcases hstep with ⟨e, he, rfl⟩
      rcases List.mem_cons.mp ih with heq | hb
      · rw [heq] at he
        have h := previewList_processed g (fgGet g objectId) [objectId] e he
        simp only [List.mem_append, List.mem_cons] at h
        unfold previewPath
        simp only [List.mem_cons]
        tauto
      · have h := previewList_closed g (fgGet g objectId) [objectId] b hb e he
        simp only [List.mem_append, List.mem_cons] at h
        unfold previewPath
        simp only [List.mem_cons]
        tauto

/-! ## Parser data model (`plantuml-parser.js`) -/

/-- Shorthand for JS string literals. -/
def js (s : String) : JsStr := s.toList

/-- Decimal rendering of a number, as JS template literals produce. -/
def natToJs (n : Nat) : JsStr := (Nat.repr n).toList

/-- `${x}` for a possibly-null/undefined string. -/
def jsTemplate (a : Option JsStr) : JsStr := a.getD (js "undefined")

/-- `Math.max` on exact rationals. -/
def jsMax (a b : ℚ) : ℚ := if a < b then b else a

/-- `Math.min` on exact rationals. -/
def jsMin (a b : ℚ) : ℚ := if b < a then b else a

/-- The `style` object built by `getArrowStyle`. -/
structure ArrowStyle where
  strokeWidth : ℚ
  strokeDasharray : JsStr
deriving DecidableEq, Repr

/-- An entry of `this.objects` (the parser's entity map).  `oid` and `name`
stay possibly-undefined because JS would happily store an `undefined` id or
name; `width` is computed once at creation. -/
structure UMLObject where
  oid : Option JsStr
  name : Option JsStr
  otype : JsStr
  x : ℚ
  y : ℚ
  width : ℚ
  height : ℚ
deriving DecidableEq, Repr

/-- An entry of `this.connections`.  Ordinary connections have
`cfrom`/`cto`/`connectionType` set and `ctype`/`command`/`target` absent;
command markers (`activate`/`deactivate`) have `ctype = "command"`,
`command`/`target` set, and `cfrom = cto = none` (JS `null`). -/
structure Connection where
  cid : JsStr
  ctype : Option JsStr
  command : Option JsStr
  target : Option JsStr
  cfrom : Option JsStr
  cto : Option JsStr
  label : JsStr
  arrowType : JsStr
  connectionType : Option JsStr
  style : ArrowStyle
deriving DecidableEq, Repr

/-- `getArrowStyle(arrowType, connectionType)` (lines 211–268): a base
style of `{strokeWidth: 2, strokeDasharray: 'none'}` adjusted first by the
raw arrow token and then by the normalized connection type. -/
def getArrowStyle (arrowType : JsStr) (connectionType : JsStr) : ArrowStyle :=
  let base : ArrowStyle := ⟨2, js "none"⟩
  let base :=
    if arrowType = js "-->" ∨ arrowType = js "<--" then
      { base with strokeDasharray := js "5,5" }
    else if arrowType = js "->>" ∨ arrowType = js "<<-" then
      { base with strokeWidth := 3 }
    else if arrowType = js "..>" ∨ arrowType = js "<.." then
      { strokeWidth := 3/2, strokeDasharray := js "2,3" }
    else if arrowType = js "..." then ⟨1, js "1,2"⟩
    else if arrowType = js "\\\\" then ⟨5/2, js "10,5"⟩
    else if arrowType = js "||" then { base with strokeWidth := 4 }
    else base
  if connectionType = js "dashed" then
    { base with strokeDasharray := js "5,5" }
  else if connectionType = js "dotted" then
    { strokeWidth := jsMax (base.strokeWidth * (4/5)) 1, strokeDasharray := js "2,3" }
  else if connectionType = js "dotted_line" then
    { strokeWidth := jsMax (base.strokeWidth * (3/5)) 1, strokeDasharray := js "1,2" }
  else if connectionType = js "double" then
    { base with strokeWidth := jsMax (base.strokeWidth * (3/2)) 3 }
  else if connectionType = js "break" then
    { strokeWidth := jsMax (base.strokeWidth * (6/5)) (5/2), strokeDasharray := js "10,5" }
  else if connectionType = js "parallel" then
    { base with strokeWidth := jsMax (base.strokeWidth * 2) 4 }
  else base

/-- `addObject(id, name, type)` (lines 175–187): first write wins — when
`this.objects` already has the key nothing happens.  Otherwise the new
object is created with `name: name || id` and
`width: Math.max(name.length * 8 + 40, 120)`; evaluating `name.length`
throws a `TypeError` when `name` is `undefined`, which the model surfaces
as `Except.error`. -/
def addObject (objects : List UMLObject) (id : Option JsStr) (name : Option JsStr)
    (otype : JsStr) : Except JsStr (List UMLObject) :=
  if objects.any (fun o => o.oid = id) then .ok objects
  else
    match name with
    | none => .error (js "TypeError: cannot read length of undefined")
    | some nm =>
      .ok (objects ++ [{ oid := id, name := jsOr (some nm) id, otype := otype,
                         x := 0, y := 0,
                         width := jsMax ((nm.length : ℚ) * 8 + 40) 120, height := 60 }])

/-- `addConnection(fromId, toId, label, arrowType, connectionType)`
(lines 192–206): both endpoints are auto-created as participants (name =
their own id), then the connection record is pushed with a synthetic id
`` `${fromId}-${toId}-${connections.length}` ``. -/
def addConnection (objects : List UMLObject) (connections : List Connection)
    (fromId toId : Option JsStr) (label : JsStr) (arrowType : JsStr)
    (connectionType : JsStr) : Except JsStr (List UMLObject × List Connection) := do
  let objects ← addObject objects fromId fromId (js "participant")
  let objects ← addObject objects toId toId (js "participant")
  let cid := jsTemplate fromId ++ js "-" ++ jsTemplate toId ++ js "-"
      ++ natToJs connections.length
  .ok (objects, connections ++
    [{ cid := cid, ctype := none, command := none, target := none,
       cfrom := fromId, cto := toId, label := label, arrowType := arrowType,
       connectionType := some connectionType,
       style := getArrowStyle arrowType connectionType }])

/-! ## `buildFlowGraph` (`animation-system.js` lines 25–38)

Iterates `this.connections` in order; for each connection (command markers
included — nothing filters them), ensures the key `conn.from` exists and
pushes `{to, connectionId, label}` onto its adjacency list.  For a command
marker `conn.from` is `null`, so the entry lands under the `none` key. -/

def buildFlowGraph (connections : List Connection) : FlowGraph (Option JsStr) :=
  connections.foldl
    (fun g conn =>
      let g := if (fgFind? g conn.cfrom).isNone then fgSet g conn.cfrom [] else g
      fgSet g conn.cfrom
        (fgGet g conn.cfrom ++ [{ eto := conn.cto, connectionId := conn.cid,
                                  label := conn.label }]))
    []

/-- Total length of all adjacency lists of a flow graph. -/
def fgTotalEdges (g : FlowGraph (Option JsStr)) : Nat :=
  (g.map (fun p => p.2.length)).sum

/-- A connection counts as a command marker exactly when its `from` is
null — the condition §4.2 of the spec filters on. -/
def isCommandConn (c : Connection) : Bool := c.cfrom = none

/-! ## Engine state and `stopAnimation` (`animation-system.js` lines 304–317)

The `AnimationSystem` instance state together with the visual state owned
by the canvas collaborator (highlight classes per element, and the inline
`transition`/`strokeDasharray`/`strokeDashoffset` styles of connection
lines, which `stopAnimation` resets). -/

structure LineInlineStyle where
  transition : JsStr
  strokeDasharray : JsStr
  strokeDashoffset : JsStr
deriving DecidableEq, Repr

structure AnimState where
  isAnimating : Bool
  animationQueue : List JsStr
  animationSpeed : ℚ
  connections : List Connection
  flowGraph : FlowGraph (Option JsStr)
  canvasHighlights : List (JsStr × JsStr)
  canvasLineStyles : List (JsStr × LineInlineStyle)
deriving DecidableEq, Repr

/-- `initialize(connections)` (lines 17–20): store the connections and
rebuild the flow graph. -/
def initialize' (s : AnimState) (connections : List Connection) : AnimState :=
  { s with connections := connections, flowGraph := buildFlowGraph connections }

/-- `setSpeed(speed)` (lines 43–45). -/
def setSpeed (s : AnimState) (speed : ℚ) : AnimState :=
  { s with animationSpeed := jsMax (1/10) (jsMin 5 speed) }

/-- `stopAnimation()` (lines 304–317): clear the running flag and the
queue, clear all highlights on the canvas, and blank the in-flight CSS
transition state of every connection line. -/
def stopAnimation (s : AnimState) : AnimState :=
  { s with isAnimating := false,
           animationQueue := [],
           canvasHighlights := [],
           canvasLineStyles := s.canvasLineStyles.map
             (fun p => (p.1, { transition := [], strokeDasharray := [],
                               strokeDashoffset := [] })) }

/-! ## `findPath` (`animation-system.js` lines 456–485)

Breadth-first search: a queue of `{id, path}` records, a visited set
filled at dequeue time; expanding a node scans its adjacency list in
order, returning `[...path, toId]` the moment the target shows up as a
direct successor, and pushing `{conn.to, [...path, conn.to]}` for every
not-yet-visited successor. -/

/-- The body of the `for (const conn of connections)` loop: `.error p`
models the early `return` with the found path, `.ok pushes` the records
appended to the queue. -/
def expandEdges (toId : α) (path : List α) (visited : List α) :
    List (FlowEdge α) → Except (List α) (List (α × List α))
  | [] => .ok []
  | e :: es =>
    if e.eto = toId then .error (path ++ [toId])
    else if e.eto ∈ visited then expandEdges toId path visited es
    else (expandEdges toId path visited es).map
      (fun pushes => (e.eto, path ++ [e.eto]) :: pushes)

def findPathLoop (g : FlowGraph α) (toId : α) (visited : List α)
    (queue : List (α × List α)) : Option (List α) :=
  match queue with
  | [] => none
  | (id, path) :: rest =>
    if id ∈ visited then findPathLoop g toId visited rest
    else
      match hpush : expandEdges toId path (id :: visited) (fgGet g id) with
      | .error p => some p
      | .ok pushes => findPathLoop g toId (id :: visited) (rest ++ pushes)
termination_by ((fgNodes g \ visited.toFinset).card, queue.length)
decreasing_by
  · exact Prod.Lex.right _ (Nat.lt_succ_self _)
  · have hvis : id ∉ visited := by assumption
    by_cases hn : id ∈ fgNodes g
    · exact Prod.Lex.left _ _ (sdiff_insert_card_lt hn hvis)
    · rw [fgGet_eq_nil_of_not_node hn] at hpush
      have hp : pushes = ([] : List (α × List α)) := by
        have : (Except.ok [] : Except (List α) (List (α × List α))) = .ok pushes := hpush
        exact (Except.ok.inj this).symm
      rw [sdiff_cons_of_not_mem hn, hp]
      exact Prod.Lex.right _ (by simp)

/-- `findPath(fromId, toId)`. -/
def findPath (g : FlowGraph α) (fromId toId : α) : Option (List α) :=
  if fromId = toId then some [fromId]
  else findPathLoop g toId [] [(fromId, [fromId])]

/-! ## A backtracking regex engine for the parser's pattern subset

Every repetition in the parser's regexes (`\s*`, `\w+`, `\S+`, `[^"]+`,
`"?`, `(.*)`) applies to a single character class, so the engine only
needs greedy single-class repetition with backtracking, ordered
alternation, literal sequences, capture groups, the `$` anchor and
leftmost-position search — which reproduces ECMAScript matching for this
subset: positions are tried left to right, at each position alternatives
in order, repetitions longest first. -/

/-- A single character class. -/
inductive RChar
  | word
  | space
  | nonspace
  | notQuote
  | dot
  | lit (c : Char)
deriving DecidableEq, Repr

/-- Which characters a class accepts (`\w`, `\s`, `\S`, `[^"]`, `.`,
literal).  `\s`/`.` are modelled on the ASCII whitespace/newline
characters. -/
def rcharMatches (rc : RChar) : Char → Bool
  | c =>
    match rc with
    | .word => c.isAlphanum || c = '_'
    | .space => c = ' ' || c = '\t' || c = '\n' || c = '\r' || c = '\x0b' || c = '\x0c'
    | .nonspace => !(c = ' ' || c = '\t' || c = '\n' || c = '\r' || c = '\x0b' || c = '\x0c')
    | .notQuote => c ≠ '"'
    | .dot => c ≠ '\n' && c ≠ '\r'
    | .lit c' => c = c'

/-- Regexes over the subset the parser uses. -/
inductive Re
  | eps
  | ch (rc : RChar)
  | str (cs : List Char)
  | alt (r1 r2 : Re)
  | cat (r1 r2 : Re)
  | star (rc : RChar)
  | plus (rc : RChar)
  | opt (rc : RChar)
  | group (idx : Nat) (r : Re)
  | eos
deriving DecidableEq, Repr

/-- Capture state: group index to captured text, latest write first. -/
abbrev Caps := List (Nat × JsStr)

def setCap (i : Nat) (t : JsStr) (caps : Caps) : Caps := (i, t) :: caps

def getCap (caps : Caps) (i : Nat) : Option JsStr :=
  (caps.find? (fun p => p.1 = i)).map (fun p => p.2)

/-- Length of the maximal prefix run of characters in the class. -/
def runLen (rc : RChar) : List Char → Nat
  | [] => 0
  | c :: cs => if rcharMatches rc c then runLen rc cs + 1 else 0

/-- Greedy `X*`: try consuming `n` characters, then `n-1`, …, then `0`. -/
def starTry (s : List Char) (caps : Caps) (k : List Char → Caps → Option Caps) :
    Nat → Option Caps
  | 0 => k s caps
  | n + 1 => (k (s.drop (n + 1)) caps).orElse (fun _ => starTry s caps k n)

/-- Greedy `X+`: like `X*` but at least one character. -/
def plusTry (s : List Char) (caps : Caps) (k : List Char → Caps → Option Caps) :
    Nat → Option Caps
  | 0 => none
  | n + 1 => (k (s.drop (n + 1)) caps).orElse (fun _ => plusTry s caps k n)

/-- A literal character sequence. -/
def litTry (cs : List Char) (s : List Char) (caps : Caps)
    (k : List Char → Caps → Option Caps) : Option Caps :=
  match cs, s with
  | [], _ => k s caps
  | _ :: _, [] => none
  | c :: cs', d :: ds => if d = c then litTry cs' ds caps k else none

/-- The backtracking matcher in continuation-passing style: `mre r s caps k`
matches `r` against a prefix of `s`, calling `k` with the remaining suffix
and updated captures; the first success (in backtracking order) wins. -/
def mre : Re → List Char → Caps → (List Char → Caps → Option Caps) → Option Caps
  | .eps, s, caps, k => k s caps
  | .ch rc, s, caps, k =>
    match s with
    | [] => none
    | c :: cs => if rcharMatches rc c then k cs caps else none
  | .str cs, s, caps, k => litTry cs s caps k
  | .alt r1 r2, s, caps, k => (mre r1 s caps k).orElse (fun _ => mre r2 s caps k)
  | .cat r1 r2, s, caps, k => mre r1 s caps (fun s' caps' => mre r2 s' caps' k)
  | .star rc, s, caps, k => starTry s caps k (runLen rc s)
  | .plus rc, s, caps, k => plusTry s caps k (runLen rc s)
  | .opt rc, s, caps, k =>
    match s with
    | [] => k s caps
    | c :: cs =>
      if rcharMatches rc c then (k cs caps).orElse (fun _ => k s caps) else k s caps
  | .group i r, s, caps, k =>
    mre r s caps (fun s' caps' => k s' (setCap i (s.take (s.length - s'.length)) caps'))
  | .eos, s, caps, k => if s = [] then k s caps else none

/-- A whole JS regex: ordered top-level alternatives, each with its
`^`-anchored flag (group numbering runs across the alternatives, as in
`/^actor …(1)…(2)|^actor …(3)/`). -/
abbrev JsRegex := List (Bool × Re)

/-- Try every alternative, in order, at the current position. -/
def execHere (alts : JsRegex) (s : List Char) (atStart : Bool) : Option Caps :=
  match alts with
  | [] => none
  | (anchored, r) :: rest =>
    if anchored && !atStart then execHere rest s atStart
    else (mre r s [] (fun _ caps => some caps)).orElse (fun _ => execHere rest s atStart)

/-- Leftmost search: positions left to right, alternatives in order at
each position. -/
def execSearch (alts : JsRegex) : List Char → Bool → Option Caps
  | s, atStart =>
    (execHere alts s atStart).orElse
      (fun _ =>
        match s with
        | [] => none
        | _ :: rest => execSearch alts rest false)

/-- `line.match(regex)`: `some` capture state on a match, `none` otherwise. -/
def jsMatch (alts : JsRegex) (s : JsStr) : Option Caps := execSearch alts s true

/-! ## The parser's pattern catalog -/

/-- Sequence a list of regexes. -/
def reCats (rs : List Re) : Re := rs.foldr Re.cat Re.eps

/-- Ordered alternation of a list of regexes. -/
def reAlts : List Re → Re
  | [] => Re.eps
  | [r] => r
  | r :: rs => Re.alt r (reAlts rs)

/-- `(\w+|\S+)` captured as group `i`. -/
def tokGroup (i : Nat) : Re := Re.group i (Re.alt (Re.plus .word) (Re.plus .nonspace))

/-- Ordered alternation of literal strings. -/
def strAlts (toks : List String) : Re := reAlts (toks.map (fun t => Re.str (js t)))

/-- One entry of `parseConnection`'s pattern catalog. -/
structure ConnPattern where
  regex : JsRegex
  ptype : JsStr
  reverse : Bool
  plabel : Option JsStr
deriving DecidableEq, Repr

/-- `/(\w+|\S+)\s*(TOK)\s*(\w+|\S+)\s*:\s*(.*)/` with a connection type. -/
def connPat (tok ty : String) (rev : Bool) : ConnPattern :=
  { regex := [(false, reCats [tokGroup 1, Re.star .space, Re.group 2 (Re.str (js tok)),
      Re.star .space, tokGroup 3, Re.star .space, Re.ch (.lit ':'), Re.star .space,
      Re.group 4 (Re.star .dot)])],
    ptype := js ty, reverse := rev, plabel := none }

/-- `/(\w+|\S+)\s*(TOK)\s*(\w+|\S+)$/` — label-less arrows, `label: ''`. -/
def connPatNoLabel (tok ty : String) (rev : Bool) : ConnPattern :=
  { regex := [(false, reCats [tokGroup 1, Re.star .space, Re.group 2 (Re.str (js tok)),
      Re.star .space, tokGroup 3, Re.eos])],
    ptype := js ty, reverse := rev, plabel := some [] }

/-- `parseConnection`'s pattern catalog, in source order (lines 109–134). -/
def connectionPatterns : List ConnPattern :=
  [ connPat "->" "solid" false,
    connPat "-->" "dashed" false,
    connPat "<-" "reverse_solid" true,
    connPat "<--" "reverse_dashed" true,
    connPat "->>" "double" false,
    connPat "<<-" "reverse_double" true,
    connPat "..>" "dotted" false,
    connPat "<.." "reverse_dotted" true,
    connPat "..." "dotted_line" false,
    connPat "\\\\" "break" false,
    connPat "||" "parallel" false,
    connPat "o|" "circle_start" false,
    connPat "|o" "circle_end" false,
    connPatNoLabel "->" "solid" false,
    connPatNoLabel "-->" "dashed" false,
    connPatNoLabel "<-" "reverse_solid" true,
    connPatNoLabel "<--" "reverse_dashed" true ]

/-- `/^(activate|deactivate)\s+(\w+)/` (line 155). -/
def activateRegex : JsRegex :=
  [(true, reCats [Re.group 1 (Re.alt (Re.str (js "activate")) (Re.str (js "deactivate"))),
    Re.plus .space, Re.group 2 (Re.plus .word)])]

/-- `/^KW\s+"?([^"]+)"?\s+as\s+(\w+)|^KW\s+(\w+)/` — the declaration
pattern for one entity keyword (lines 52–60). -/
def declPattern (kw : String) : JsRegex :=
  [ (true, reCats [Re.str (js kw), Re.plus .space, Re.opt (.lit '"'),
      Re.group 1 (Re.plus .notQuote), Re.opt (.lit '"'), Re.plus .space,
      Re.str (js "as"), Re.plus .space, Re.group 2 (Re.plus .word)]),
    (true, reCats [Re.str (js kw), Re.plus .space, Re.group 3 (Re.plus .word)]) ]

/-- The declaration patterns with their entity kinds, in source order. -/
def declPatterns : List (JsRegex × JsStr) :=
  [ (declPattern "actor", js "actor"),
    (declPattern "participant", js "participant"),
    (declPattern "entity", js "entity"),
    (declPattern "database", js "database"),
    (declPattern "boundary", js "boundary"),
    (declPattern "control", js "control"),
    (declPattern "collections", js "collections"),
    (declPattern "queue", js "queue") ]

/-- The big marker alternation of the first pass-1 connection pattern
(line 75), alternatives in source order. -/
def objConnRegex1 : JsRegex :=
  [(false, reCats [tokGroup 1, Re.star .space,
    Re.group 2 (strAlts ["->", "-->", "<-", "<--", "->>", "<<-", "..>", "..",
      "<..", "...", "<...", "\\\\", "|", "o|", "|", "o"]),
    Re.star .space, tokGroup 3, Re.star .space, Re.ch (.lit ':'), Re.star .space,
    Re.group 4 (Re.star .dot)])]

/-- Line 76: the label-less form with the six basic markers. -/
def objConnRegex2 : JsRegex :=
  [(false, reCats [tokGroup 1, Re.star .space,
    Re.group 2 (strAlts ["->", "-->", "<-", "<--", "->>", "<<-"]),
    Re.star .space, tokGroup 3, Re.eos])]

/-- Lines 78–79: `/^activate\s+(\w+)/` and `/^deactivate\s+(\w+)/`. -/
def objConnRegex3 : JsRegex :=
  [(true, reCats [Re.str (js "activate"), Re.plus .space, Re.group 1 (Re.plus .word)])]

def objConnRegex4 : JsRegex :=
  [(true, reCats [Re.str (js "deactivate"), Re.plus .space, Re.group 1 (Re.plus .word)])]

def objectConnPatterns : List JsRegex :=
  [objConnRegex1, objConnRegex2, objConnRegex3, objConnRegex4]

/-- The note pattern (line 96). -/
def notePattern : JsRegex :=
  [ (true, reCats [Re.str (js "note"), Re.plus .space,
      Re.group 1 (strAlts ["left", "right", "over"]), Re.plus .space,
      Re.group 2 (Re.plus .word), Re.star .space, Re.ch (.lit ':'), Re.star .space,
      Re.group 3 (Re.star .dot)]),
    (true, reCats [Re.str (js "note"), Re.plus .space,
      Re.group 4 (strAlts ["left", "right"]), Re.star .space, Re.ch (.lit ':'),
      Re.star .space, Re.group 5 (Re.star .dot)]) ]

/-! ## The parser passes (`plantuml-parser.js` lines 21–170) -/

/-- Whitespace for `String.prototype.trim`. -/
def isJsSpace (c : Char) : Bool := rcharMatches .space c

/-- `s.trim()`. -/
def jsTrim (s : JsStr) : JsStr :=
  ((s.dropWhile isJsSpace).reverse.dropWhile isJsSpace).reverse

/-- First declaration pattern that matches, with its entity kind. -/
def findDeclMatch : List (JsRegex × JsStr) → JsStr → Option (Caps × JsStr)
  | [], _ => none
  | (rx, ty) :: ps, line =>
    match jsMatch rx line with
    | some caps => some (caps, ty)
    | none => findDeclMatch ps line

/-- Outcome of the pass-1 connection-pattern loop (lines 82–93): both
`match[1]` and `match[3]` truthy registers two entities, `match[1]` truthy
alone (activate/deactivate) registers one; otherwise the loop continues. -/
inductive ObjConnHit
  | two (m1 m3 : Option JsStr)
  | one (m1 : Option JsStr)
deriving DecidableEq, Repr

def scanObjConn : List JsRegex → JsStr → Option ObjConnHit
  | [], _ => none
  | rx :: ps, line =>
    match jsMatch rx line with
    | some caps =>
      if jsTruthy (getCap caps 1) && jsTruthy (getCap caps 3) then
        some (.two (getCap caps 1) (getCap caps 3))
      else if jsTruthy (getCap caps 1) && !jsTruthy (getCap caps 3) then
        some (.one (getCap caps 1))
      else scanObjConn ps line
    | none => scanObjConn ps line

/-- `parseObjectDefinition(line)` (lines 49–102), acting on the object map. -/
def parseObjectDefinition (objects : List UMLObject) (line : JsStr) :
    Except JsStr (List UMLObject) :=
  match findDeclMatch declPatterns line with
  | some (caps, ty) =>
    addObject objects (jsOr (getCap caps 2) (getCap caps 3))
      (jsOr (getCap caps 1) (getCap caps 3)) ty
  | none =>
    match scanObjConn objectConnPatterns line with
    | some (.two m1 m3) => do
      let objects ← addObject objects m1 m1 (js "participant")
      addObject objects m3 m3 (js "participant")
    | some (.one m1) => addObject objects m1 m1 (js "participant")
    | none =>
      match jsMatch notePattern line with
      | some caps =>
        if jsTruthy (getCap caps 2) then
          addObject objects (getCap caps 2) (getCap caps 2) (js "participant")
        else .ok objects
      | none => .ok objects

/-- First `parseConnection` pattern that matches. -/
def findConnMatch : List ConnPattern → JsStr → Option (ConnPattern × Caps)
  | [], _ => none
  | p :: ps, line =>
    match jsMatch p.regex line with
    | some caps => some (p, caps)
    | none => findConnMatch ps line

/-- `parseConnection(line)` (lines 107–170): first matching catalog entry
wins; reverse markers swap the endpoints; otherwise the activate pattern
appends a command marker. -/
def parseConnection (objects : List UMLObject) (connections : List Connection)
    (line : JsStr) : Except JsStr (List UMLObject × List Connection) :=
  match findConnMatch connectionPatterns line with
  | some (p, caps) =>
    let fromId := getCap caps 1
    let arrow := getCap caps 2
    let toId := getCap caps 3
    let label := getCap caps 4
    let actualFrom := if p.reverse then toId else fromId
    let actualTo := if p.reverse then fromId else toId
    addConnection objects connections actualFrom actualTo
      (jsTrim ((jsOr (jsOr label p.plabel) (some [])).getD []))
      (arrow.getD (js "->")) p.ptype
  | none =>
    match jsMatch activateRegex line with
    | some caps =>
      .ok (objects, connections ++
        [{ cid := js "command-" ++ natToJs connections.length,
           ctype := some (js "command"),
           command := getCap caps 1, target := getCap caps 2,
           cfrom := none, cto := none,
           label := jsTemplate (getCap caps 1) ++ js " " ++ jsTemplate (getCap caps 2),
           arrowType := js "command", connectionType := none,
           style := { strokeWidth := 1, strokeDasharray := js "none" } }])
    | none => .ok (objects, connections)

/-- The parser's output `{objects, connections}`. -/
structure DiagramModel where
  objects : List UMLObject
  connections : List Connection
deriving DecidableEq, Repr

def jsStartsWith (l p : JsStr) : Bool := l.take p.length == p

/-- Line splitting and filtering of `parse` (lines 24–27). -/
def parseLines (text : JsStr) : List JsStr :=
  ((text.splitOn '\n').map jsTrim).filter
    (fun l => !l.isEmpty && !jsStartsWith l (js "@") && !jsStartsWith l (js "'"))

/-- `parse(plantumlText)` (lines 21–39): throws only on a `null`/`undefined`
argument (`.split` on it); otherwise two passes over the filtered lines. -/
def parse (input : Option JsStr) : Except JsStr DiagramModel := do
  match input with
  | none => .error (js "TypeError: cannot read split of null")
  | some text =>
    let lines := parseLines text
    let objects ← lines.foldlM (fun objs line => parseObjectDefinition objs line) []
    let st ← lines.foldlM (fun st line => parseConnection st.1 st.2 line)
      (objects, ([] : List Connection))
    .ok { objects := st.1, connections := st.2 }

/-! ## `autoLayout` (`plantuml-parser.js` lines 273–299) -/

/-- `Math.ceil(Math.sqrt(n))` for a natural number `n`. -/
def ceilSqrt (n : Nat) : Nat :=
  if Nat.sqrt n * Nat.sqrt n = n then Nat.sqrt n else Nat.sqrt n + 1

/-- `Math.ceil(n / cols)` for naturals (`cols > 0`). -/
def ceilDiv (n cols : Nat) : Nat := (n + cols - 1) / cols

/-- `autoLayout(objects, canvasWidth, canvasHeight)`: a `ceil(sqrt n)`-column
grid filled in insertion order; each entity is centered in its cell and then
clamped to `[padding, canvas - size - padding]` on each axis. -/
def autoLayout (objects : List UMLObject) (canvasWidth canvasHeight : ℚ) :
    List UMLObject :=
  let padding : ℚ := 50
  let usableWidth := canvasWidth - padding * 2
  let usableHeight := canvasHeight - padding * 2
  if objects.length = 0 then objects
  else
    let cols := ceilSqrt objects.length
    let rows := ceilDiv objects.length cols
    let cellWidth := usableWidth / (cols : ℚ)
    let cellHeight := usableHeight / (rows : ℚ)
    objects.enum.map (fun p =>
      let index := p.1
      let obj := p.2
      let col := index % cols
      let row := index / cols
      let x := padding + (col : ℚ) * cellWidth + cellWidth / 2 - obj.width / 2
      let y := padding + (row : ℚ) * cellHeight + cellHeight / 2 - obj.height / 2
      { obj with
          x := jsMax padding (jsMin x (canvasWidth - obj.width - padding)),
          y := jsMax padding (jsMin y (canvasHeight - obj.height - padding)) })

/-! ## Two overlapping `startFlowAnimation` runs (`animation-system.js` 50–148)

`startFlowAnimation` is `async`: it runs synchronously up to the first
`await` and then resumes from timer callbacks.  The model replays two runs
on one engine instance over the flow graph `{A: [A→B], X: [X→Y]}` — run 1
is `startFlowAnimation('A')`, run 2 `startFlowAnimation('X')` issued while
run 1 awaits its first delay.  Each run is a sequence of atomic segments
separated by the source's suspension points, derived line by line:

* segment 0 — the synchronous prologue and the start of `animateFlow`:
  `if (isAnimating) stopAnimation()`; `isAnimating = true`;
  `clearAllHighlights()`; in `animateFlow(start)`: the entry check (flag
  true, start unvisited), `highlightObject(start)`, then `await delay(300)`.
* segment 1 — resume at line 82: `if (!isAnimating) return`; outgoing
  edges nonempty, loop iteration checks the flag (line 95), then
  `animateConnection`: its own flag check, `highlightConnection`, then the
  600 ms `setTimeout`.
* segment 2 — the 600 ms timer: schedules the inner 100 ms `setTimeout`
  (no flag check, no visible effect).
* segment 3 — the 100 ms timer: `if (isAnimating) removeConnectionHighlight`;
  `resolve()`; back in `animateFlow` the line-100 check; recursion into
  `animateFlow(mid)`: entry check, `highlightObject(mid)`, `await delay`.
* segment 4 — resume at line 82: flag check; `mid` has no outgoing edges,
  so `await delay(500)`.
* segment 5 — return; the single-edge loop ends and `animateFlow(start)`
  returns, reaching `finally { isAnimating = false }`.

A segment that observes a false flag returns early; every run end (early
or normal) executes the `finally`, which sets `isAnimating` to `false`
unconditionally. -/

inductive TraceEv
  | clearAll
  | resetLines
  | highlightObj (run : Nat) (id : JsStr)
  | highlightConn (run : Nat) (id : JsStr)
  | removeConnHighlight (run : Nat) (id : JsStr)
deriving DecidableEq, Repr

structure EngSt where
  flag : Bool
  log : List TraceEv
deriving DecidableEq, Repr

/-- `stopAnimation()` as run 2's prologue sees it: flag down, all
highlights cleared, line styles reset. -/
def stopEv (st : EngSt) : EngSt :=
  { flag := false, log := st.log ++ [TraceEv.clearAll, TraceEv.resetLines] }

/-- One segment of a run (`tag` labels which call issued the commands;
`start`/`mid`/`connId` are the run's two nodes and its edge id).  Returns
the engine state and the next pending segment (`none` = the run ended and
its `finally` clause executes). -/
def runSeg (tag : Nat) (start mid connId : JsStr) (seg : Nat) (st : EngSt) :
    EngSt × Option Nat :=
  match seg with
  | 0 =>
    let st := if st.flag then stopEv st else st
    let st := { st with flag := true }
    let st := { st with log := st.log ++ [TraceEv.clearAll] }
    ({ st with log := st.log ++ [TraceEv.highlightObj tag start] }, some 1)
  | 1 =>
    if !st.flag then (st, none)
    else ({ st with log := st.log ++ [TraceEv.highlightConn tag connId] }, some 2)
  | 2 => (st, some 3)
  | 3 =>
    let st := if st.flag then
        { st with log := st.log ++ [TraceEv.removeConnHighlight tag connId] }
      else st
    if !st.flag then (st, none)
    else ({ st with log := st.log ++ [TraceEv.highlightObj tag mid] }, some 4)
  | 4 => if !st.flag then (st, none) else (st, some 5)
  | _ => (st, none)

/-- `finally { this.isAnimating = false; }`. -/
def runFinally (st : EngSt) : EngSt := { st with flag := false }

/-- Drive the two concrete runs under an explicit event-loop schedule
(which call's timer fires next).  Run 1 animates `A → B`, run 2 `X → Y`. -/
def c4Drive : List Nat → EngSt × Option Nat × Option Nat → EngSt × Option Nat × Option Nat
  | [], acc => acc
  | tag :: rest, (st, s1, s2) =>
    if tag = 1 then
      match s1 with
      | none => c4Drive rest (st, s1, s2)
      | some seg =>
        match runSeg 1 (js "A") (js "B") (js "A-B-0") seg st with
        | (st', some seg') => c4Drive rest (st', some seg', s2)
        | (st', none) => c4Drive rest (runFinally st', none, s2)
    else
      match s2 with
      | none => c4Drive rest (st, s1, s2)
      | some seg =>
        match runSeg 2 (js "X") (js "Y") (js "X-Y-0") seg st with
        | (st', some seg') => c4Drive rest (st', s1, some seg')
        | (st', none) => c4Drive rest (runFinally st', s1, none)

/-- The interleaving of the scenario: run 1 starts, run 2 starts while
run 1 sits at its first delay, then the timers alternate in FIFO order. -/
def c4Trace : EngSt × Option Nat × Option Nat :=
  c4Drive [1, 2, 1, 2, 1, 2, 1, 2, 1, 2, 1, 2]
    ({ flag := false, log := [] }, some 0, some 0)

/-! ## Concrete fixtures used by the claim theorems -/

/-- The 3-cycle `A->B->C->A` of C1, parsed from source text. -/
def c1Conns : List Connection :=
  match parse (some (js "A -> B: m1\nB -> C: m2\nC -> A: m3")) with
  | .ok m => m.connections
  | .error _ => []

/-- What `parse` actually produces on C2's scenario input
`"A -> B: hi\nB --> A: ok"`: the unanchored solid `->` pattern steals the
`-->` line (matching `from = "-"`, the second dash of the marker), so the
parser emits a third entity `"-"` and a *solid* connection `"-" → A`. -/
def c2Model : DiagramModel :=
  { objects :=
      [ { oid := some (js "A"), name := some (js "A"), otype := js "participant",
          x := 0, y := 0, width := 120, height := 60 },
        { oid := some (js "B"), name := some (js "B"), otype := js "participant",
          x := 0, y := 0, width := 120, height := 60 },
        { oid := some (js "-"), name := some (js "-"), otype := js "participant",
          x := 0, y := 0, width := 120, height := 60 } ],
    connections :=
      [ { cid := js "A-B-0", ctype := none, command := none, target := none,
          cfrom := some (js "A"), cto := some (js "B"), label := js "hi",
          arrowType := js "->", connectionType := some (js "solid"),
          style := { strokeWidth := 2, strokeDasharray := js "none" } },
        { cid := js "--A-1", ctype := none, command := none, target := none,
          cfrom := some (js "-"), cto := some (js "A"), label := js "ok",
          arrowType := js "->", connectionType := some (js "solid"),
          style := { strokeWidth := 2, strokeDasharray := js "none" } } ] }

/-- C3's fixture: one ordinary connection plus one command marker. -/
def c3Conns : List Connection :=
  match parse (some (js "A -> B: x\nactivate A")) with
  | .ok m => m.connections
  | .error _ => []

/-- A freshly created participant `A`, as `addObject` stores it. -/
def cObjA : UMLObject :=
  { oid := some (js "A"), name := some (js "A"), otype := js "participant",
    x := 0, y := 0, width := 120, height := 60 }

/-! ## Claim theorems -/

/-- C1: the depth-first traversal started by `startFlowAnimation`
terminates on every flow graph, cyclic ones included — the visited set is
threaded by value, so along one path it strictly grows (`animateFlowVisits`
is accepted by Lean with the measure "graph nodes outside the visited
set", and no reported node was already in the visited set it descended
with) — and on the 3-cycle `A->B->C->A`, `startFlowAnimation('A')` visits
A, B and C exactly once each and then terminates. -/
theorem c1_flow_traversal_cycle_safe {α : Type} [DecidableEq α]
    (g : FlowGraph α) (x : α) (visited : List α) :
    (∀ n ∈ animateFlowVisits g x visited, n ∉ visited) ∧
    animateFlowVisits (buildFlowGraph c1Conns) (some (js "A")) [] =
      [some (js "A"), some (js "B"), some (js "C")] :=
  ⟨animateFlowVisits_fresh g x visited, by with_unfolding_all rfl⟩

/-- C2 (code bug): on the scenario input `"A -> B: hi\nB --> A: ok"` the
parser does *not* produce 2 entities and a dashed `B → A` connection: the
catalog's first, unanchored solid pattern matches the `-->` line at the
second dash (`from = "-"`, `to = "A"`), so the actual result has a third
entity `"-"` and a solid `"-" → A` connection labeled `"ok"`. -/
theorem c2_scenario_actual_parse :
    parse (some (js "A -> B: hi\nB --> A: ok")) = .ok c2Model ∧
    c2Model.objects.length = 3 ∧
    (c2Model.connections.map (fun c => (c.cfrom, c.cto, c.connectionType))) =
      [ (some (js "A"), some (js "B"), some (js "solid")),
        (some (js "-"), some (js "A"), some (js "solid")) ] := by
  refine ⟨by with_unfolding_all rfl, rfl, rfl⟩

/-- C3 (code bug): command markers are *not* filtered before the flow
graph is built — `buildFlowGraph` keys them under `null`.  On the parsed
input `"A -> B: x\nactivate A"` the adjacency lists hold 2 entries while
only 1 connection is a non-command one, and the graph has a `none` key. -/
theorem c3_command_markers_not_filtered :
    fgTotalEdges (buildFlowGraph c3Conns) = 2 ∧
    (c3Conns.filter (fun c => !isCommandConn c)).length = 1 ∧
    (buildFlowGraph c3Conns).map Prod.fst = [some (js "A"), none] := by
  refine ⟨by with_unfolding_all rfl, by with_unfolding_all rfl, by with_unfolding_all rfl⟩

/-- C4 (code bug): starting a second run while the first awaits its first
delay does *not* leave exactly one active run.  The replayed event trace
shows the first run resuming after the second run's start (the shared
`isAnimating` flag was set back to `true`), highlighting its connection
and its second node (`highlightConn 1`, `highlightObj 1 B`) after the
second run's first highlight (`highlightObj 2 X`). -/
theorem c4_two_overlapping_runs_trace :
    c4Trace.1.log =
      [ TraceEv.clearAll,
        TraceEv.highlightObj 1 (js "A"),
        TraceEv.clearAll,
        TraceEv.resetLines,
        TraceEv.clearAll,
        TraceEv.highlightObj 2 (js "X"),
        TraceEv.highlightConn 1 (js "A-B-0"),
        TraceEv.highlightConn 2 (js "X-Y-0"),
        TraceEv.removeConnHighlight 1 (js "A-B-0"),
        TraceEv.highlightObj 1 (js "B"),
        TraceEv.removeConnHighlight 2 (js "X-Y-0"),
        TraceEv.highlightObj 2 (js "Y") ] := by
  with_unfolding_all rfl

/-- C10: `stopAnimation` changes only the running flag, the pending queue
and per-element visual state; the flow graph, the stored connections and
the animation speed are untouched. -/
theorem c10_stopAnimation_frame (s : AnimState) :
    (stopAnimation s).flowGraph = s.flowGraph ∧
    (stopAnimation s).connections = s.connections ∧
    (stopAnimation s).animationSpeed = s.animationSpeed ∧
    (stopAnimation s).isAnimating = false ∧
    (stopAnimation s).animationQueue = [] :=
  ⟨rfl, rfl, rfl, rfl, rfl⟩

/-- C8: `previewPath` is a depth-first preorder collection with one global
visited set: the result has no duplicates, starts with the queried id, its
members are exactly the ids reachable from the start, and an entity with
no outgoing edges yields the singleton list. -/
theorem c8_previewPath_spec {α : Type} [DecidableEq α] (g : FlowGraph α)
    (objectId : α) :
    (previewPath g objectId).Nodup ∧
    (previewPath g objectId).head? = some objectId ∧
    (∀ x, x ∈ previewPath g objectId ↔ FgReach g objectId x) ∧
    (fgGet g objectId = [] → previewPath g objectId = [objectId]) := by
  refine ⟨?_, rfl, previewPath_mem_iff_reach g objectId, ?_⟩
  · unfold previewPath
    rw [List.nodup_cons]
    refine ⟨fun hc => ?_, previewList_nodup g _ _⟩
    exact previewList_fresh g _ _ objectId hc (List.mem_singleton_self _)
  · intro h
    unfold previewPath
    rw [h, previewList_nil]

/-! ## C6: first declaration wins -/

theorem addObject_keeps_found {objects : List UMLObject} {id : Option JsStr}
    {o : UMLObject} (ho : objects.find? (fun ob => ob.oid = id) = some o)
    {id' : Option JsStr} {name : Option JsStr} {ty : JsStr} {objs2 : List UMLObject}
    (h : addObject objects id' name ty = .ok objs2) :
    objs2.find? (fun ob => ob.oid = id) = some o := by
  unfold addObject at h
  split at h
  · rw [← Except.ok.inj h]
    exact ho
  · match name, h with
    | some nm, h =>
      simp only [Except.ok.injEq] at h
      rw [← h, List.find?_append, ho]
      rfl

theorem parseObjectDefinition_keeps_found {objects : List UMLObject}
    {id : Option JsStr} {o : UMLObject}
    (ho : objects.find? (fun ob => ob.oid = id) = some o)
    {line : JsStr} {objs2 : List UMLObject}
    (h : parseObjectDefinition objects line = .ok objs2) :
    objs2.find? (fun ob => ob.oid = id) = some o := by
  unfold parseObjectDefinition at h
  split at h
  · exact addObject_keeps_found ho h
  · split at h
    · rename_i m1 m3 heq
      simp only [bind, Except.bind] at h
      cases hadd : addObject objects m1 m1 (js "participant") with
      | error e => rw [hadd] at h; cases h
      | ok mid =>
        rw [hadd] at h
        exact addObject_keeps_found (addObject_keeps_found ho hadd) h
    · exact addObject_keeps_found ho h
    · split at h
      · split at h
        · exact addObject_keeps_found ho h
        · rw [← Except.ok.inj h]; exact ho
      · rw [← Except.ok.inj h]; exact ho

theorem addConnection_keeps_found {objects : List UMLObject}
    {conns : List Connection} {id : Option JsStr} {o : UMLObject}
    (ho : objects.find? (fun ob => ob.oid = id) = some o)
    {fromId toId : Option JsStr} {label arrowType connectionType : JsStr}
    {st2 : List UMLObject × List Connection}
    (h : addConnection objects conns fromId toId label arrowType connectionType
        = .ok st2) :
    st2.1.find? (fun ob => ob.oid = id) = some o := by
  unfold addConnection at h
  simp only [bind, Except.bind] at h
  cases h1 : addObject objects fromId fromId (js "participant") with
  | error e => rw [h1] at h; cases h
  | ok mid =>
    rw [h1] at h
    dsimp only at h
    cases h2 : addObject mid toId toId (js "participant") with
    | error e => rw [h2] at h; cases h
    | ok mid2 =>
      rw [h2] at h
      dsimp only at h
      have : st2.1 = mid2 := by rw [← Except.ok.inj h]
      rw [this]
      exact addObject_keeps_found (addObject_keeps_found ho h1) h2

theorem parseConnection_keeps_found {objects : List UMLObject}
    {conns : List Connection} {id : Option JsStr} {o : UMLObject}
    (ho : objects.find? (fun ob => ob.oid = id) = some o)
    {line : JsStr} {st2 : List UMLObject × List Connection}
    (h : parseConnection objects conns line = .ok st2) :
    st2.1.find? (fun ob => ob.oid = id) = some o := by
  unfold parseConnection at h
  split at h
  · exact addConnection_keeps_found ho h
  · split at h
    · have : st2.1 = objects := by rw [← Except.ok.inj h]
      rw [this]; exact ho
    · have : st2.1 = objects := by rw [← Except.ok.inj h]
      rw [this]; exact ho

theorem pass1_keeps_found {id : Option JsStr} {o : UMLObject} :
    ∀ (lines : List JsStr) (objects : List UMLObject),
      objects.find? (fun ob => ob.oid = id) = some o →
      ∀ {objs2 : List UMLObject},
        List.foldlM (fun objs line => parseObjectDefinition objs line) objects lines
          = .ok objs2 →
        objs2.find? (fun ob => ob.oid = id) = some o := by
  intro lines
  induction lines with
  | nil =>
    intro objects ho objs2 h
    rw [← Except.ok.inj h]
    exact ho
  | cons line rest ih =>
    intro objects ho objs2 h
    rw [List.foldlM_cons] at h
    simp only [bind, Except.bind] at h
    cases h1 : parseObjectDefinition objects line with
    | error e => rw [h1] at h; cases h
    | ok mid =>
      rw [h1] at h
      exact ih mid (parseObjectDefinition_keeps_found ho h1) h

theorem pass2_keeps_found {id : Option JsStr} {o : UMLObject} :
    ∀ (lines : List JsStr) (st : List UMLObject × List Connection),
      st.1.find? (fun ob => ob.oid = id) = some o →
      ∀ {st2 : List UMLObject × List Connection},
        List.foldlM (fun st line => parseConnection st.1 st.2 line) st lines = .ok st2 →
        st2.1.find? (fun ob => ob.oid = id) = some o := by
  intro lines
  induction lines with
  | nil =>
    intro st ho st2 h
    rw [← Except.ok.inj h]
    exact ho
  | cons line rest ih =>
    intro st ho st2 h
    rw [List.foldlM_cons] at h
    simp only [bind, Except.bind] at h
    cases h1 : parseConnection st.1 st.2 line with
    | error e => rw [h1] at h; cases h
    | ok mid =>
      rw [h1] at h
      exact ih mid (parseConnection_keeps_found ho h1) h

/-- C6: an entity id is assigned once per parse and the first
declaration or reference wins: once the object map holds an entry for an
id, a later `addObject` with that id is a no-op, and every `addObject`
call reachable in either parser pass (declaration, connection-endpoint
or note registration in pass 1, connection auto-creation in pass 2)
leaves the stored record — kind, display name and size included —
unchanged. -/
theorem c6_first_declaration_wins (objects : List UMLObject)
    (id : Option JsStr) (o : UMLObject)
    (ho : objects.find? (fun ob => ob.oid = id) = some o) :
    (∀ name ty, addObject objects id name ty = .ok objects) ∧
    (∀ id' name ty objs2, addObject objects id' name ty = .ok objs2 →
        objs2.find? (fun ob => ob.oid = id) = some o) ∧
    (∀ lines objs2,
        List.foldlM (fun objs line => parseObjectDefinition objs line) objects lines
          = .ok objs2 →
        objs2.find? (fun ob => ob.oid = id) = some o) ∧
    (∀ lines conns st2,
        List.foldlM (fun st line => parseConnection st.1 st.2 line)
          (objects, conns) lines = .ok st2 →
        st2.1.find? (fun ob => ob.oid = id) = some o) := by
  have hany : objects.any (fun ob => ob.oid = id) = true := by
    rw [List.any_eq_true]
    refine ⟨o, List.mem_of_find?_eq_some ho, ?_⟩
    have := List.find?_some ho
    simpa using this
  refine ⟨?_, ?_, ?_, ?_⟩
  · intro name ty
    unfold addObject
    rw [hany]
    rfl
  · intro id' name ty objs2 h
    exact addObject_keeps_found ho h
  · intro lines objs2 h
    exact pass1_keeps_found lines objects ho h
  · intro lines conns st2 h
    exact pass2_keeps_found lines (objects, conns) ho h

/-- Witness for C6 at a concrete map holding entity `A`. -/
theorem c6_first_declaration_wins_witness :
    (∀ name ty, addObject [cObjA] (some (js "A")) name ty = .ok [cObjA]) ∧
    (∀ id' name ty objs2, addObject [cObjA] id' name ty = .ok objs2 →
        objs2.find? (fun ob => ob.oid = some (js "A")) = some cObjA) ∧
    (∀ lines objs2,
        List.foldlM (fun objs line => parseObjectDefinition objs line) [cObjA] lines
          = .ok objs2 →
        objs2.find? (fun ob => ob.oid = some (js "A")) = some cObjA) ∧
    (∀ lines conns st2,
        List.foldlM (fun st line => parseConnection st.1 st.2 line)
          ([cObjA], conns) lines = .ok st2 →
        st2.1.find? (fun ob => ob.oid = some (js "A")) = some cObjA) :=
  c6_first_declaration_wins [cObjA] (some (js "A")) cObjA (by rfl)

/-! ## C9: `autoLayout` -/

theorem le_jsMax_left (a b : ℚ) : a ≤ jsMax a b := by
  unfold jsMax
  split_ifs with hlt
  · linarith
  · exact le_refl a

theorem jsMax_le {a b c : ℚ} (h1 : a ≤ c) (h2 : b ≤ c) : jsMax a b ≤ c := by
  unfold jsMax
  split_ifs <;> assumption

theorem jsMin_le_right (a b : ℚ) : jsMin a b ≤ b := by
  unfold jsMin
  split_ifs with hlt
  · exact le_refl b
  · linarith

/-- C9 counterexample: a single entity of width 120 on a 150-wide canvas
is pinned at `x = padding = 50` and its box ends at `x + width = 170`,
beyond the canvas width 150 — the clamped position does not keep the
entire box inside the canvas. -/
theorem c9_oversized_box_escapes_canvas :
    (autoLayout [cObjA] 150 600).map (fun o => (o.x, o.x + o.width)) = [(50, 170)] ∧
    (150 : ℚ) < 170 := by
  constructor
  · with_unfolding_all rfl
  · norm_num

/-- C9 (amended): `autoLayout` assigns entity `i` the cell
`(i % cols, i / cols)` of a `cols = ceil(sqrt n)` grid in insertion order,
centers the box in its cell, and clamps each coordinate to
`[padding, canvas − size − padding]` (lower bound winning); the result is
a pure function of the entity list and canvas size, only `x`/`y` change,
and whenever a box fits the usable area (`size ≤ canvas − 2·padding` on
both axes) the entire box stays within the canvas. -/
theorem c9_autoLayout_grid_clamped (objects : List UMLObject) (w h : ℚ) :
    (autoLayout objects w h).length = objects.length ∧
    (∀ i : Nat, (autoLayout objects w h)[i]? = (objects[i]?).map (fun obj =>
      { obj with
          x := jsMax 50 (jsMin
            (50 + ((i % ceilSqrt objects.length : Nat) : ℚ)
                * ((w - 50 * 2) / ((ceilSqrt objects.length : Nat) : ℚ))
              + ((w - 50 * 2) / ((ceilSqrt objects.length : Nat) : ℚ)) / 2
              - obj.width / 2)
            (w - obj.width - 50)),
          y := jsMax 50 (jsMin
            (50 + ((i / ceilSqrt objects.length : Nat) : ℚ)
                * ((h - 50 * 2)
                  / ((ceilDiv objects.length (ceilSqrt objects.length) : Nat) : ℚ))
              + ((h - 50 * 2)
                  / ((ceilDiv objects.length (ceilSqrt objects.length) : Nat) : ℚ)) / 2
              - obj.height / 2)
            (h - obj.height - 50)) })) ∧
    (∀ (i : Nat) (obj : UMLObject), (autoLayout objects w h)[i]? = some obj →
      obj.width ≤ w - 50 * 2 → obj.height ≤ h - 50 * 2 →
      50 ≤ obj.x ∧ obj.x + obj.width ≤ w - 50 ∧
      50 ≤ obj.y ∧ obj.y + obj.height ≤ h - 50) := by
  have hmap : ∀ i : Nat, (autoLayout objects w h)[i]? = (objects[i]?).map (fun obj =>
      { obj with
          x := jsMax 50 (jsMin
            (50 + ((i % ceilSqrt objects.length : Nat) : ℚ)
                * ((w - 50 * 2) / ((ceilSqrt objects.length : Nat) : ℚ))
              + ((w - 50 * 2) / ((ceilSqrt objects.length : Nat) : ℚ)) / 2
              - obj.width / 2)
            (w - obj.width - 50)),
          y := jsMax 50 (jsMin
            (50 + ((i / ceilSqrt objects.length : Nat) : ℚ)
                * ((h - 50 * 2)
                  / ((ceilDiv objects.length (ceilSqrt objects.length) : Nat) : ℚ))
              + ((h - 50 * 2)
                  / ((ceilDiv objects.length (ceilSqrt objects.length) : Nat) : ℚ)) / 2
              - obj.height / 2)
            (h - obj.height - 50)) }) := by
    intro i
    by_cases h0 : objects.length = 0
    · have hnil : objects = [] := List.length_eq_zero.mp h0
      subst hnil
      simp [autoLayout]
    · unfold autoLayout
      rw [if_neg h0]
      rw [List.getElem?_map, List.getElem?_enum]
      cases objects[i]? with
      | none => rfl
      | some obj => rfl
  refine ⟨?_, hmap, ?_⟩
  · by_cases h0 : objects.length = 0
    · have hnil : objects = [] := List.length_eq_zero.mp h0
      subst hnil
      simp [autoLayout]
    · unfold autoLayout
      rw [if_neg h0]
      simp
  · intro i obj hget hw hh
    rw [hmap i] at hget
    cases hoi : objects[i]? with
    | none => rw [hoi] at hget; cases hget
    | some obj0 =>
      rw [hoi] at hget
      simp only [Option.map_some'] at hget
      have hobj := (Option.some.inj hget).symm
      subst hobj
      refine ⟨le_jsMax_left _ _, ?_, le_jsMax_left _ _, ?_⟩
      · have hx : jsMax 50 (jsMin
            (50 + ((i % ceilSqrt objects.length : Nat) : ℚ)
                * ((w - 50 * 2) / ((ceilSqrt objects.length : Nat) : ℚ))
              + ((w - 50 * 2) / ((ceilSqrt objects.length : Nat) : ℚ)) / 2
              - obj0.width / 2)
            (w - obj0.width - 50)) ≤ w - obj0.width - 50 :=
          jsMax_le (by simp at hw ⊢; linarith) (jsMin_le_right _ _)
        simp only at hx ⊢
        linarith
      · have hy : jsMax 50 (jsMin
            (50 + ((i / ceilSqrt objects.length : Nat) : ℚ)
                * ((h - 50 * 2)
                  / ((ceilDiv objects.length (ceilSqrt objects.length) : Nat) : ℚ))
              + ((h - 50 * 2)
                  / ((ceilDiv objects.length (ceilSqrt objects.length) : Nat) : ℚ)) / 2
              - obj0.height / 2)
            (h - obj0.height - 50)) ≤ h - obj0.height - 50 :=
          jsMax_le (by simp at hh ⊢; linarith) (jsMin_le_right _ _)
        simp only at hy ⊢
        linarith

/-! ## C7: `parse` throws only on null input

The one throwing operation reachable from `parse` is `name.length` in
`addObject`.  Call sites either guard on truthiness of the capture
(`match[1] && …`) or rely on the regex having a capturing group on every
success path.  The lemmas below extract exactly that from the matcher:
`hasGroup r i = false` means a match of `r` cannot touch group `i`, while
`mustCap r i = true` means every successful match of `r` fills group `i`
with at least one character. -/

def hasGroup : Re → Nat → Bool
  | .group j r, i => i == j || hasGroup r i
  | .alt a b, i => hasGroup a i || hasGroup b i
  | .cat a b, i => hasGroup a i || hasGroup b i
  | _, _ => false

/-- Fewest characters a match of `r` can consume. -/
def minLen : Re → Nat
  | .eps => 0
  | .ch _ => 1
  | .str cs => cs.length
  | .alt a b => min (minLen a) (minLen b)
  | .cat a b => minLen a + minLen b
  | .star _ => 0
  | .plus _ => 1
  | .opt _ => 0
  | .group _ r => minLen r
  | .eos => 0

/-- Group `i` is filled with a nonempty capture on every success path. -/
def mustCap : Re → Nat → Bool
  | .group j r, i => (i == j && decide (1 ≤ minLen r)) || (mustCap r i && !(i == j))
  | .alt a b, i => mustCap a i && mustCap b i
  | .cat a b, i => (mustCap a i && !hasGroup b i) || mustCap b i
  | _, _ => false

/-- What a successful match of `r` did to the capture state. -/
def CapsOk (r : Re) (caps caps' : Caps) : Prop :=
  (∀ i, hasGroup r i = false → getCap caps' i = getCap caps i) ∧
  (∀ i, mustCap r i = true → ∃ t, getCap caps' i = some t ∧ t ≠ [])

theorem orElse_eq_some {a : Option Caps} {f : Unit → Option Caps} {res : Caps}
    (h : a.orElse f = some res) : a = some res ∨ (a = none ∧ f () = some res) := by
  cases a with
  | none => exact Or.inr ⟨rfl, h⟩
  | some v => exact Or.inl h

theorem runLen_le (rc : RChar) : ∀ s : List Char, runLen rc s ≤ s.length := by
  intro s
  induction s with
  | nil => simp [runLen]
  | cons c cs ih =>
    unfold runLen
    split_ifs
    · simpa using ih
    · simp

theorem starTry_inv {s : List Char} {caps : Caps}
    {k : List Char → Caps → Option Caps} {res : Caps} :
    ∀ {n : Nat}, starTry s caps k n = some res →
      ∃ j, j ≤ n ∧ k (s.drop j) caps = some res := by
  intro n
  induction n with
  | zero =>
    intro h
    exact ⟨0, Nat.le_refl 0, by simpa using h⟩
  | succ m ih =>
    intro h
    rcases orElse_eq_some h with h1 | ⟨_, h2⟩
    · exact ⟨m + 1, Nat.le_refl _, h1⟩
    · rcases ih h2 with ⟨j, hj, hk⟩
      exact ⟨j, Nat.le_succ_of_le hj, hk⟩

theorem plusTry_inv {s : List Char} {caps : Caps}
    {k : List Char → Caps → Option Caps} {res : Caps} :
    ∀ {n : Nat}, plusTry s caps k n = some res →
      ∃ j, 1 ≤ j ∧ j ≤ n ∧ k (s.drop j) caps = some res := by
  intro n
  induction n with
  | zero => intro h; cases h
  | succ m ih =>
    intro h
    rcases orElse_eq_some h with h1 | ⟨_, h2⟩
    · exact ⟨m + 1, Nat.succ_le_succ (Nat.zero_le m), Nat.le_refl _, h1⟩
    · rcases ih h2 with ⟨j, hj1, hj, hk⟩
      exact ⟨j, hj1, Nat.le_succ_of_le hj, hk⟩

theorem litTry_inv {res : Caps} {k : List Char → Caps → Option Caps} :
    ∀ (cs s : List Char) (caps : Caps), litTry cs s caps k = some res →
      cs.length ≤ s.length ∧ k (s.drop cs.length) caps = some res := by
  intro cs
  induction cs with
  | nil =>
    intro s caps h
    exact ⟨Nat.zero_le _, by simpa using h⟩
  | cons c cs' ih =>
    intro s caps h
    match s, h with
    | d :: ds, h =>
      unfold litTry at h
      split_ifs at h
      rcases ih ds caps h with ⟨hlen, hk⟩
      exact ⟨Nat.succ_le_succ hlen, by simpa using hk⟩

theorem getCap_setCap (j i : Nat) (t : JsStr) (caps : Caps) :
    getCap (setCap j t caps) i = if i = j then some t else getCap caps i := by
  unfold getCap setCap
  by_cases hij : i = j
  · subst hij
    simp [List.find?]
  · rw [if_neg hij, List.find?_cons_of_neg]
    simp only [decide_eq_true_eq]
    exact fun hc => hij hc.symm

theorem capsOk_refl (r : Re) (hmc : ∀ i, mustCap r i = false) (caps : Caps) :
    CapsOk r caps caps :=
  ⟨fun _ _ => rfl, fun i hi => absurd hi (by rw [hmc i]; simp)⟩

theorem mre_inv (r : Re) :
    ∀ (s : List Char) (caps : Caps) (k : List Char → Caps → Option Caps) (res : Caps),
      mre r s caps k = some res →
      ∃ n caps', n ≤ s.length ∧ minLen r ≤ n ∧
        k (s.drop n) caps' = some res ∧ CapsOk r caps caps' := by
  induction r with
  | eps =>
    intro s caps k res h
    exact ⟨0, caps, Nat.zero_le _, Nat.le_refl _, by simpa using h,
      capsOk_refl _ (fun i => by simp [mustCap]) caps⟩
  | ch rc =>
    intro s caps k res h
    cases s with
    | nil =>
      exact Option.noConfusion h
    | cons c cs =>
      simp only [mre] at h
      split_ifs at h with hc
      exact ⟨1, caps, by simp, Nat.le_refl _, by simpa using h,
        capsOk_refl _ (fun i => by simp [mustCap]) caps⟩
  | str cs =>
    intro s caps k res h
    unfold mre at h
    rcases litTry_inv cs s caps h with ⟨hlen, hk⟩
    exact ⟨cs.length, caps, hlen, Nat.le_refl _, hk,
      capsOk_refl _ (fun i => by simp [mustCap]) caps⟩
  | alt r1 r2 ih1 ih2 =>
    intro s caps k res h
    unfold mre at h
    rcases orElse_eq_some h with h1 | ⟨_, h2⟩
    · rcases ih1 s caps k res h1 with ⟨n, c', hle, hmin, hk, hco⟩
      refine ⟨n, c', hle, le_trans (Nat.min_le_left _ _) hmin, hk, ?_, ?_⟩
      · intro i hi
        simp only [hasGroup, Bool.or_eq_false_iff] at hi
        exact hco.1 i hi.1
      · intro i hi
        simp only [mustCap, Bool.and_eq_true] at hi
        exact hco.2 i hi.1
    · rcases ih2 s caps k res h2 with ⟨n, c', hle, hmin, hk, hco⟩
      refine ⟨n, c', hle, le_trans (Nat.min_le_right _ _) hmin, hk, ?_, ?_⟩
      · intro i hi
        simp only [hasGroup, Bool.or_eq_false_iff] at hi
        exact hco.1 i hi.2
      · intro i hi
        simp only [mustCap, Bool.and_eq_true] at hi
        exact hco.2 i hi.2
  | cat r1 r2 ih1 ih2 =>
    intro s caps k res h
    unfold mre at h
    rcases ih1 s caps _ res h with ⟨n1, c1, h1le, h1min, hk1, hco1⟩
    rcases ih2 (s.drop n1) c1 k res hk1 with ⟨n2, c2, h2le, h2min, hk2, hco2⟩
    have hdl := List.length_drop n1 s
    refine ⟨n1 + n2, c2, by omega, ?_, ?_, ?_, ?_⟩
    · simp only [minLen]
      omega
    · rw [List.drop_drop] at hk2
      exact hk2
    · intro i hi
      simp only [hasGroup, Bool.or_eq_false_iff] at hi
      rw [hco2.1 i hi.2, hco1.1 i hi.1]
    · intro i hi
      simp only [mustCap, Bool.or_eq_true, Bool.and_eq_true,
        Bool.not_eq_true', Bool.not_eq_eq_eq_not] at hi
      rcases hi with ⟨hm1, hg2⟩ | hm2
      · rcases hco1.2 i hm1 with ⟨t, ht, htne⟩
        refine ⟨t, ?_, htne⟩
        rw [hco2.1 i]
        · exact ht
        · simpa using hg2
      · exact hco2.2 i hm2
  | star rc =>
    intro s caps k res h
    unfold mre at h
    rcases starTry_inv h with ⟨j, hj, hk⟩
    exact ⟨j, caps, le_trans hj (runLen_le rc s), Nat.zero_le _, hk,
      capsOk_refl _ (fun i => by simp [mustCap]) caps⟩
  | plus rc =>
    intro s caps k res h
    unfold mre at h
    rcases plusTry_inv h with ⟨j, hj1, hj, hk⟩
    exact ⟨j, caps, le_trans hj (runLen_le rc s), hj1, hk,
      capsOk_refl _ (fun i => by simp [mustCap]) caps⟩
  | opt rc =>
    intro s caps k res h
    cases s with
    | nil =>
      simp only [mre] at h
      exact ⟨0, caps, Nat.le_refl _, Nat.zero_le _, by simpa using h,
        capsOk_refl _ (fun i => by simp [mustCap]) caps⟩
    | cons c cs =>
      simp only [mre] at h
      split_ifs at h with hc
      · rcases orElse_eq_some h with h1 | ⟨_, h2⟩
        · exact ⟨1, caps, by simp, Nat.zero_le _, by simpa using h1,
            capsOk_refl _ (fun i => by simp [mustCap]) caps⟩
        · exact ⟨0, caps, by simp, Nat.zero_le _, by simpa using h2,
            capsOk_refl _ (fun i => by simp [mustCap]) caps⟩
      · exact ⟨0, caps, by simp, Nat.zero_le _, by simpa using h,
          capsOk_refl _ (fun i => by simp [mustCap]) caps⟩
  | group j r ih =>
    intro s caps k res h
    unfold mre at h
    rcases ih s caps _ res h with ⟨n, c1, hle, hmin, hk1, hco⟩
    have hlen : s.length - (s.drop n).length = n := by
      rw [List.length_drop]
      omega
    rw [hlen] at hk1
    refine ⟨n, setCap j (s.take n) c1, hle, hmin, hk1, ?_, ?_⟩
    · intro i hi
      simp only [hasGroup, Bool.or_eq_false_iff, beq_eq_false_iff_ne, ne_eq] at hi
      rw [getCap_setCap, if_neg hi.1, hco.1 i hi.2]
    · intro i hi
      simp only [mustCap, Bool.or_eq_true, Bool.and_eq_true, beq_iff_eq,
        decide_eq_true_eq, Bool.not_eq_true', beq_eq_false_iff_ne, ne_eq] at hi
      rcases hi with ⟨hij, hm⟩ | ⟨hm, hij⟩
      · refine ⟨s.take n, by rw [getCap_setCap, if_pos hij], fun hc => ?_⟩
        have h1 : 1 ≤ n := le_trans hm hmin
        have h2 : 0 < (s.take n).length := by
          rw [List.length_take]
          exact Nat.lt_min.mpr ⟨by omega, by omega⟩
        rw [hc] at h2
        simp at h2
      · rcases hco.2 i hm with ⟨t, ht, htne⟩
        exact ⟨t, by rw [getCap_setCap, if_neg hij]; exact ht, htne⟩
  | eos =>
    intro s caps k res h
    unfold mre at h
    split_ifs at h with hs
    · subst hs
      exact ⟨0, caps, Nat.le_refl _, Nat.le_refl _, by simpa using h,
        capsOk_refl _ (fun i => by simp [mustCap]) caps⟩

theorem execHere_inv {alts : JsRegex} :
    ∀ {s : List Char} {atStart : Bool} {caps : Caps},
      execHere alts s atStart = some caps →
      ∃ br ∈ alts, mre br.2 s [] (fun _ c => some c) = some caps := by
  induction alts with
  | nil =>
    intro s atStart caps h
    exact Option.noConfusion h
  | cons br rest ih =>
    intro s atStart caps h
    obtain ⟨anchored, r⟩ := br
    unfold execHere at h
    split_ifs at h with hskip
    · rcases ih h with ⟨br', hmem, hm⟩
      exact ⟨br', List.mem_cons_of_mem _ hmem, hm⟩
    · rcases orElse_eq_some h with h1 | ⟨_, h2⟩
      · exact ⟨(anchored, r), List.mem_cons_self _ _, h1⟩
      · rcases ih h2 with ⟨br', hmem, hm⟩
        exact ⟨br', List.mem_cons_of_mem _ hmem, hm⟩

theorem execSearch_inv {alts : JsRegex} :
    ∀ (s : List Char) (atStart : Bool) {caps : Caps},
      execSearch alts s atStart = some caps →
      ∃ br ∈ alts, ∃ s₀, mre br.2 s₀ [] (fun _ c => some c) = some caps := by
  intro s
  induction s with
  | nil =>
    intro atStart caps h
    unfold execSearch at h
    rcases orElse_eq_some h with h1 | ⟨_, h2⟩
    · rcases execHere_inv h1 with ⟨br, hmem, hm⟩
      exact ⟨br, hmem, [], hm⟩
    · exact Option.noConfusion h2
  | cons c rest ih =>
    intro atStart caps h
    unfold execSearch at h
    rcases orElse_eq_some h with h1 | ⟨_, h2⟩
    · rcases execHere_inv h1 with ⟨br, hmem, hm⟩
      exact ⟨br, hmem, c :: rest, hm⟩
    · exact ih false h2

/-- Every successful `line.match(regex)`: some alternative matched, its
untouched groups are undefined and its always-filled groups hold nonempty
text. -/
theorem jsMatch_caps {alts : JsRegex} {line : JsStr} {caps : Caps}
    (h : jsMatch alts line = some caps) :
    ∃ br ∈ alts,
      (∀ i, hasGroup br.2 i = false → getCap caps i = none) ∧
      (∀ i, mustCap br.2 i = true → ∃ t, getCap caps i = some t ∧ t ≠ []) := by
  unfold jsMatch at h
  rcases execSearch_inv line true h with ⟨br, hmem, s₀, hm⟩
  rcases mre_inv br.2 s₀ [] _ caps hm with ⟨n, c', _, _, hk, hco⟩
  have hc : c' = caps := Option.some.inj hk
  subst hc
  refine ⟨br, hmem, fun i hi => ?_, hco.2⟩
  rw [hco.1 i hi]
  rfl

/-- Each declaration pattern captures, on any match, a nonempty group 1
with no group 3 (the quoted-name alternative) or a nonempty group 3 with
no group 1 (the bare-identifier alternative). -/
theorem declPatterns_caps : ∀ rxty ∈ declPatterns, ∀ br ∈ rxty.1,
    (mustCap br.2 1 = true ∧ hasGroup br.2 3 = false) ∨
    (mustCap br.2 3 = true ∧ hasGroup br.2 1 = false) := by
  decide

/-- Every `parseConnection` catalog pattern always fills groups 1 and 3. -/
theorem connPatterns_caps : ∀ p ∈ connectionPatterns, ∀ br ∈ p.regex,
    mustCap br.2 1 = true ∧ mustCap br.2 3 = true := by
  decide

/-- `Except` success as a Boolean. -/
def exceptOk {ε σ : Type} : Except ε σ → Bool
  | .ok _ => true
  | .error _ => false

theorem jsOr_isSome_left {a b : Option JsStr} {t : JsStr} (ha : a = some t)
    (ht : t ≠ []) : (jsOr a b).isSome = true := by
  rw [ha]
  simp [jsOr, ht]

theorem jsOr_isSome_right {a b : Option JsStr} {t : JsStr} (ha : a = none)
    (hb : b = some t) (ht : t ≠ []) : (jsOr a b).isSome = true := by
  rw [ha, hb]
  rfl

theorem jsTruthy_isSome {a : Option JsStr} (h : jsTruthy a = true) :
    a.isSome = true := by
  cases a with
  | none => exact absurd h (by simp [jsTruthy])
  | some t => rfl

theorem addObject_ok {objects : List UMLObject} {id name : Option JsStr} {ty : JsStr}
    (h : name.isSome = true) :
    ∃ objs2, addObject objects id name ty = .ok objs2 := by
  unfold addObject
  split
  · exact ⟨objects, rfl⟩
  · cases name with
    | none => exact absurd h (by simp)
    | some nm => exact ⟨_, rfl⟩

theorem findDeclMatch_inv :
    ∀ (ps : List (JsRegex × JsStr)) (line : JsStr) {caps : Caps} {ty : JsStr},
      findDeclMatch ps line = some (caps, ty) →
      ∃ rxty ∈ ps, jsMatch rxty.1 line = some caps := by
  intro ps
  induction ps with
  | nil =>
    intro line caps ty h
    exact Option.noConfusion h
  | cons rxty rest ih =>
    intro line caps ty h
    obtain ⟨rx, ty0⟩ := rxty
    unfold findDeclMatch at h
    cases hm : jsMatch rx line with
    | some caps0 =>
      rw [hm] at h
      have h1 := Option.some.inj h
      refine ⟨(rx, ty0), List.mem_cons_self _ _, ?_⟩
      rw [hm]
      have : caps0 = caps := congrArg Prod.fst h1
      rw [this]
    | none =>
      rw [hm] at h
      rcases ih line h with ⟨r', hmem, hm'⟩
      exact ⟨r', List.mem_cons_of_mem _ hmem, hm'⟩

theorem findConnMatch_inv :
    ∀ (ps : List ConnPattern) (line : JsStr) {p : ConnPattern} {caps : Caps},
      findConnMatch ps line = some (p, caps) →
      p ∈ ps ∧ jsMatch p.regex line = some caps := by
  intro ps
  induction ps with
  | nil =>
    intro line p caps h
    exact Option.noConfusion h
  | cons p0 rest ih =>
    intro line p caps h
    unfold findConnMatch at h
    cases hm : jsMatch p0.regex line with
    | some caps0 =>
      rw [hm] at h
      have h1 := Option.some.inj h
      have hp : p0 = p := congrArg Prod.fst h1
      have hc : caps0 = caps := congrArg Prod.snd h1
      subst hp
      subst hc
      exact ⟨List.mem_cons_self _ _, hm⟩
    | none =>
      rw [hm] at h
      rcases ih line h with ⟨hmem, hm'⟩
      exact ⟨List.mem_cons_of_mem _ hmem, hm'⟩

theorem scanObjConn_two_truthy :
    ∀ (ps : List JsRegex) (line : JsStr) {m1 m3 : Option JsStr},
      scanObjConn ps line = some (.two m1 m3) →
      jsTruthy m1 = true ∧ jsTruthy m3 = true := by
  intro ps
  induction ps with
  | nil =>
    intro line m1 m3 h
    exact Option.noConfusion h
  | cons rx rest ih =>
    intro line m1 m3 h
    unfold scanObjConn at h
    cases hm : jsMatch rx line with
    | some caps =>
      rw [hm] at h
      dsimp only at h
      split_ifs at h with h1 h2
      · have := Option.some.inj h
        cases this
        simp only [Bool.and_eq_true] at h1
        exact h1
      · simp at h
      · exact ih line h
    | none =>
      rw [hm] at h
      exact ih line h

theorem scanObjConn_one_truthy :
    ∀ (ps : List JsRegex) (line : JsStr) {m1 : Option JsStr},
      scanObjConn ps line = some (.one m1) →
      jsTruthy m1 = true := by
  intro ps
  induction ps with
  | nil =>
    intro line m1 h
    exact Option.noConfusion h
  | cons rx rest ih =>
    intro line m1 h
    unfold scanObjConn at h
    cases hm : jsMatch rx line with
    | some caps =>
      rw [hm] at h
      dsimp only at h
      split_ifs at h with h1 h2
      · simp at h
      · have := Option.some.inj h
        cases this
        simp only [Bool.and_eq_true] at h2
        exact h2.1
      · exact ih line h
    | none =>
      rw [hm] at h
      exact ih line h

theorem parseObjectDefinition_ok (objects : List UMLObject) (line : JsStr) :
    ∃ objs2, parseObjectDefinition objects line = .ok objs2 := by
  unfold parseObjectDefinition
  cases hd : findDeclMatch declPatterns line with
  | some capsty =>
    obtain ⟨caps, ty⟩ := capsty
    dsimp only
    rcases findDeclMatch_inv _ _ hd with ⟨rxty, hmem, hjm⟩
    rcases jsMatch_caps hjm with ⟨br, hbr, hno, hyes⟩
    rcases declPatterns_caps rxty hmem br hbr with ⟨hm1, hg3⟩ | ⟨hm3, hg1⟩
    · rcases hyes 1 hm1 with ⟨t, ht, htne⟩
      exact addObject_ok (jsOr_isSome_left ht htne)
    · rcases hyes 3 hm3 with ⟨t, ht, htne⟩
      exact addObject_ok (jsOr_isSome_right (hno 1 hg1) ht htne)
  | none =>
    dsimp only
    cases hs : scanObjConn objectConnPatterns line with
    | some hit =>
      cases hit with
      | two m1 m3 =>
        dsimp only
        rcases scanObjConn_two_truthy _ _ hs with ⟨h1, h3⟩
        rcases @addObject_ok objects m1 m1 (js "participant")
          (jsTruthy_isSome h1) with ⟨mid, hmid⟩
        rcases @addObject_ok mid m3 m3 (js "participant")
          (jsTruthy_isSome h3) with ⟨mid2, hmid2⟩
        refine ⟨mid2, ?_⟩
        simp only [bind, Except.bind]
        rw [hmid]
        exact hmid2
      | one m1 =>
        dsimp only
        exact @addObject_ok objects m1 m1 (js "participant")
          (jsTruthy_isSome (scanObjConn_one_truthy _ _ hs))
    | none =>
      dsimp only
      cases hn : jsMatch notePattern line with
      | some caps =>
        dsimp only
        split_ifs with ht
        · exact @addObject_ok objects (getCap caps 2) (getCap caps 2)
            (js "participant") (jsTruthy_isSome ht)
        · exact ⟨objects, rfl⟩
      | none => exact ⟨objects, rfl⟩

theorem addConnection_ok {objects : List UMLObject} {conns : List Connection}
    {fromId toId : Option JsStr} {label arrowType connectionType : JsStr}
    (hf : fromId.isSome = true) (ht : toId.isSome = true) :
    ∃ st2, addConnection objects conns fromId toId label arrowType connectionType
      = .ok st2 := by
  unfold addConnection
  rcases @addObject_ok objects fromId fromId (js "participant") hf with ⟨mid, hmid⟩
  rcases @addObject_ok mid toId toId (js "participant") ht with ⟨mid2, hmid2⟩
  simp only [bind, Except.bind]
  rw [hmid]
  dsimp only
  rw [hmid2]
  exact ⟨_, rfl⟩

theorem parseConnection_ok (objects : List UMLObject) (conns : List Connection)
    (line : JsStr) :
    ∃ st2, parseConnection objects conns line = .ok st2 := by
  unfold parseConnection
  cases hf : findConnMatch connectionPatterns line with
  | some pcaps =>
    obtain ⟨p, caps⟩ := pcaps
    dsimp only
    rcases findConnMatch_inv _ _ hf with ⟨hmem, hjm⟩
    rcases jsMatch_caps hjm with ⟨br, hbr, _, hyes⟩
    rcases connPatterns_caps p hmem br hbr with ⟨hm1, hm3⟩
    rcases hyes 1 hm1 with ⟨t1, ht1, _⟩
    rcases hyes 3 hm3 with ⟨t3, ht3, _⟩
    have hf1 : (getCap caps 1).isSome = true := by rw [ht1]; rfl
    have hf3 : (getCap caps 3).isSome = true := by rw [ht3]; rfl
    have hAF : (if p.reverse = true then getCap caps 3 else getCap caps 1).isSome
        = true := by
      split_ifs
      · exact hf3
      · exact hf1
    have hAT : (if p.reverse = true then getCap caps 1 else getCap caps 3).isSome
        = true := by
      split_ifs
      · exact hf1
      · exact hf3
    exact addConnection_ok hAF hAT
  | none =>
    dsimp only
    cases hn : jsMatch activateRegex line with
    | some caps => exact ⟨_, rfl⟩
    | none => exact ⟨_, rfl⟩

theorem pass1_ok :
    ∀ (lines : List JsStr) (objects : List UMLObject),
      ∃ objs2, List.foldlM (fun objs line => parseObjectDefinition objs line)
        objects lines = .ok objs2 := by
  intro lines
  induction lines with
  | nil => exact fun objects => ⟨objects, rfl⟩
  | cons line rest ih =>
    intro objects
    rcases parseObjectDefinition_ok objects line with ⟨mid, h1⟩
    rcases ih mid with ⟨objs2, h2⟩
    refine ⟨objs2, ?_⟩
    rw [List.foldlM_cons]
    simp only [bind, Except.bind]
    rw [h1]
    exact h2

theorem pass2_ok :
    ∀ (lines : List JsStr) (st : List UMLObject × List Connection),
      ∃ st2, List.foldlM (fun st line => parseConnection st.1 st.2 line) st lines
        = .ok st2 := by
  intro lines
  induction lines with
  | nil => exact fun st => ⟨st, rfl⟩
  | cons line rest ih =>
    intro st
    rcases parseConnection_ok st.1 st.2 line with ⟨mid, h1⟩
    rcases ih mid with ⟨st2, h2⟩
    refine ⟨st2, ?_⟩
    rw [List.foldlM_cons]
    simp only [bind, Except.bind]
    rw [h1]
    exact h2

/-- C7: `parse` raises exactly on a null/undefined argument: `parse null`
throws (`null.split`), and for every string input — malformed or
unrecognized lines included — `parse` returns a `DiagramModel` without
throwing (the only throwing operation, `name.length` in `addObject`, is
unreachable because every matched pattern fills the relevant capture
groups, and all other call sites are truthiness-guarded); a zero-entity
result is an ordinary value. -/
theorem c7_parse_throws_iff_null :
    parse none = .error (js "TypeError: cannot read split of null") ∧
    ∀ s : JsStr, exceptOk (parse (some s)) = true := by
  refine ⟨rfl, fun s => ?_⟩
  unfold parse
  rcases pass1_ok (parseLines s) [] with ⟨objs, h1⟩
  rcases pass2_ok (parseLines s) (objs, []) with ⟨st2, h2⟩
  simp only [bind, Except.bind]
  rw [h1]
  dsimp only
  rw [h2]
  rfl

/-! ## C5: `findPath` is breadth-first shortest path -/

/-- A direct connection step in the flow graph. -/
def FgStep (g : FlowGraph α) (a b : α) : Prop := ∃ e ∈ fgGet g a, e.eto = b

/-- `p` is a path from `x` to `y`: starts at `x`, ends at `y`, and every
consecutive pair is joined by a direct connection. -/
def IsFgPath (g : FlowGraph α) (x y : α) (p : List α) : Prop :=
  p.head? = some x ∧ p.getLast? = some y ∧ p.Chain' (FgStep g)

theorem isFgPath_singleton (g : FlowGraph α) (x : α) : IsFgPath g x x [x] :=
  ⟨rfl, rfl, List.chain'_singleton x⟩

theorem isFgPath_length_pos {g : FlowGraph α} {x y : α} {p : List α}
    (h : IsFgPath g x y p) : 1 ≤ p.length := by
  cases p with
  | nil => exact absurd h.1 (by simp)
  | cons a l => simp

theorem isFgPath_length_two {g : FlowGraph α} {x y : α} {p : List α}
    (h : IsFgPath g x y p) (hxy : x ≠ y) : 2 ≤ p.length := by
  cases p with
  | nil => exact absurd h.1 (by simp)
  | cons a l =>
    cases l with
    | nil =>
      rcases h with ⟨h1, h2, _⟩
      simp at h1 h2
      rw [h1] at h2
      exact absurd h2 hxy
    | cons b l' => simp

theorem isFgPath_append_step {g : FlowGraph α} {x u b : α} {p : List α}
    (h : IsFgPath g x u p) (hs : FgStep g u b) : IsFgPath g x b (p ++ [b]) := by
  rcases h with ⟨h1, h2, h3⟩
  refine ⟨?_, ?_, ?_⟩
  · cases p with
    | nil => exact absurd h1 (by simp)
    | cons a l => simpa using h1
  · simp
  · rw [List.chain'_append]
    refine ⟨h3, List.chain'_singleton b, ?_⟩
    intro z hz w hw
    simp at hw
    rw [h2] at hz
    simp at hz
    rw [← hz, ← hw]
    exact hs

/-- The invariant of the BFS loop.  `x` is the search's start node,
`toId` its target, `ℓ` a ghost record of the path length at which each
visited node was expanded. -/
structure BfsInv (g : FlowGraph α) (x toId : α) (visited : List α)
    (queue : List (α × List α)) (ℓ : α → Nat) : Prop where
  valid : ∀ e ∈ queue, IsFgPath g x e.1 e.2
  sorted : List.Pairwise (fun a b => a ≤ b) (queue.map (fun e => e.2.length))
  span : ∀ e1 ∈ queue, ∀ e2 ∈ queue, e1.2.length ≤ e2.2.length + 1
  expanded_no_target : ∀ v ∈ visited, ∀ e ∈ fgGet g v, e.eto ≠ toId
  expanded_cover : ∀ v ∈ visited, ∀ e ∈ fgGet g v,
      (e.eto ∈ visited ∧ ℓ e.eto ≤ ℓ v + 1) ∨
      ∃ pv, (e.eto, pv) ∈ queue ∧ pv.length ≤ ℓ v + 1
  lvl_le : ∀ v ∈ visited, ∀ e ∈ queue, ℓ v ≤ e.2.length
  base : (∃ p, (x, p) ∈ queue ∧ p.length ≤ 1) ∨ (x ∈ visited ∧ ℓ x ≤ 1)
  target_not_visited : toId ∉ visited
  target_not_queued : ∀ e ∈ queue, e.1 ≠ toId
  src_ne : x ≠ toId

theorem findPathLoop_nil (g : FlowGraph α) (toId : α) (visited : List α) :
    findPathLoop g toId visited [] = none := by
  rw [findPathLoop]

theorem findPathLoop_cons_mem {g : FlowGraph α} {toId : α} {visited : List α}
    {id : α} {path : List α} {rest : List (α × List α)} (h : id ∈ visited) :
    findPathLoop g toId visited ((id, path) :: rest)
      = findPathLoop g toId visited rest := by
  rw [findPathLoop]
  simp only [if_pos h]

theorem findPathLoop_cons_error {g : FlowGraph α} {toId : α} {visited : List α}
    {id : α} {path : List α} {rest : List (α × List α)} {p : List α}
    (h : id ∉ visited)
    (he : expandEdges toId path (id :: visited) (fgGet g id) = .error p) :
    findPathLoop g toId visited ((id, path) :: rest) = some p := by
  rw [findPathLoop]
  simp only [if_neg h]
  split
  · next p' hp' =>
    rw [he] at hp'
    simp at hp'
    rw [hp']
  · next pushes' hp' =>
    rw [he] at hp'
    exact absurd hp' (by simp)

theorem findPathLoop_cons_ok {g : FlowGraph α} {toId : α} {visited : List α}
    {id : α} {path : List α} {rest : List (α × List α)}
    {pushes : List (α × List α)} (h : id ∉ visited)
    (he : expandEdges toId path (id :: visited) (fgGet g id) = .ok pushes) :
    findPathLoop g toId visited ((id, path) :: rest)
      = findPathLoop g toId (id :: visited) (rest ++ pushes) := by
  rw [findPathLoop]
  simp only [if_neg h]
  split
  · next p' hp' =>
    rw [he] at hp'
    exact absurd hp' (by simp)
  · next pushes' hp' =>
    rw [he] at hp'
    simp at hp'
    rw [hp']

theorem expandEdges_error {toId : α} {path visited : List α}
    {es : List (FlowEdge α)} {pf : List α}
    (h : expandEdges toId path visited es = .error pf) :
    (∃ e ∈ es, e.eto = toId) ∧ pf = path ++ [toId] := by
  induction es with
  | nil => exact absurd h (by simp [expandEdges])
  | cons e es ih =>
    rw [expandEdges] at h
    by_cases h1 : e.eto = toId
    · rw [if_pos h1] at h
      simp at h
      exact ⟨⟨e, by simp, h1⟩, h.symm⟩
    · rw [if_neg h1] at h
      by_cases h2 : e.eto ∈ visited
      · rw [if_pos h2] at h
        rcases ih h with ⟨⟨e', he', ht⟩, hpf⟩
        exact ⟨⟨e', by simp [he'], ht⟩, hpf⟩
      · rw [if_neg h2] at h
        cases hrec : expandEdges toId path visited es with
        | error p' =>
          rw [hrec] at h
          simp [Except.map] at h
          rcases ih (by rw [hrec, h]) with ⟨⟨e', he', ht⟩, hpf⟩
          exact ⟨⟨e', by simp [he'], ht⟩, hpf⟩
        | ok ps =>
          rw [hrec] at h
          exact absurd h (by simp [Except.map])

theorem expandEdges_ok {toId : α} {path visited : List α}
    {es : List (FlowEdge α)} {pushes : List (α × List α)}
    (h : expandEdges toId path visited es = .ok pushes) :
    (∀ q ∈ pushes, ∃ e ∈ es, q.1 = e.eto ∧ q.2 = path ++ [e.eto] ∧
        e.eto ∉ visited) ∧
    (∀ e ∈ es, e.eto ≠ toId) ∧
    (∀ e ∈ es, e.eto ∈ visited ∨ (e.eto, path ++ [e.eto]) ∈ pushes) := by
  induction es generalizing pushes with
  | nil =>
    rw [expandEdges] at h
    simp at h
    subst h
    exact ⟨by simp, by simp, by simp⟩
  | cons e es ih =>
    rw [expandEdges] at h
    by_cases h1 : e.eto = toId
    · rw [if_pos h1] at h
      exact absurd h (by simp)
    · rw [if_neg h1] at h
      by_cases h2 : e.eto ∈ visited
      · rw [if_pos h2] at h
        rcases ih h with ⟨hi, hii, hiii⟩
        refine ⟨?_, ?_, ?_⟩
        · intro q hq
          rcases hi q hq with ⟨e', he', hrest⟩
          exact ⟨e', by simp [he'], hrest⟩
        · intro e' he'
          rcases List.mem_cons.mp he' with rfl | he'
          · exact h1
          · exact hii e' he'
        · intro e' he'
          rcases List.mem_cons.mp he' with rfl | he'
          · exact Or.inl h2
          · exact hiii e' he'
      · rw [if_neg h2] at h
        cases hrec : expandEdges toId path visited es with
        | error p' =>
          rw [hrec] at h
          exact absurd h (by simp [Except.map])
        | ok ps =>
          rw [hrec] at h
          simp [Except.map] at h
          rcases ih hrec with ⟨hi, hii, hiii⟩
          refine ⟨?_, ?_, ?_⟩
          · intro q hq
            rw [← h] at hq
            rcases List.mem_cons.mp hq with rfl | hq
            · exact ⟨e, by simp, rfl, rfl, h2⟩
            · rcases hi q hq with ⟨e', he', hrest⟩
              exact ⟨e', by simp [he'], hrest⟩
          · intro e' he'
            rcases List.mem_cons.mp he' with rfl | he'
            · exact h1
            · exact hii e' he'
          · intro e' he'
            rcases List.mem_cons.mp he' with rfl | he'
            · refine Or.inr ?_
              rw [← h]
              simp
            · rcases hiii e' he' with hm | hm
              · exact Or.inl hm
              · refine Or.inr ?_
                rw [← h]
                simp [hm]

theorem bfs_chase_aux {g : FlowGraph α} {x toId : α} {visited : List α}
    {queue : List (α × List α)} {ℓ : α → Nat}
    (inv : BfsInv g x toId visited queue ℓ) :
    ∀ (qs : List α) (v : α) (c : Nat), v ∈ visited → ℓ v ≤ c →
    IsFgPath g v toId qs → ∃ e ∈ queue, e.2.length + 2 ≤ c + qs.length := by
  intro qs
  induction qs with
  | nil =>
    intro v c _ _ hqs
    exact absurd hqs.1 (by simp)
  | cons a tail ih =>
    intro v c hv hc hqs
    have ha : a = v := by
      have := hqs.1
      simpa using this
    subst ha
    cases tail with
    | nil =>
      have h2 := hqs.2.1
      simp at h2
      rw [h2] at hv
      exact absurd hv inv.target_not_visited
    | cons w qs' =>
      have hchain := hqs.2.2
      have hstep : FgStep g a w := (List.chain'_cons.mp hchain).1
      have htail : IsFgPath g w toId (w :: qs') := by
        refine ⟨rfl, ?_, (List.chain'_cons.mp hchain).2⟩
        have := hqs.2.1
        rwa [List.getLast?_cons_cons] at this
      rcases hstep with ⟨e, he, het⟩
      have hwt : w ≠ toId := het ▸ inv.expanded_no_target a hv e he
      have hlen2 : 2 ≤ (w :: qs').length := isFgPath_length_two htail hwt
      rcases inv.expanded_cover a hv e he with ⟨hm, hl⟩ | ⟨pv, hpq, hpl⟩
      · rw [het] at hm hl
        rcases ih w (c + 1) hm (le_trans hl (by omega)) htail with ⟨e', he', hle⟩
        exact ⟨e', he', by simp at hle ⊢; omega⟩
      · rw [het] at hpq
        refine ⟨(w, pv), hpq, ?_⟩
        have : pv.length ≤ c + 1 := le_trans hpl (by omega)
        simp at hlen2 ⊢
        omega

theorem bfs_chase {g : FlowGraph α} {x toId : α} {visited : List α}
    {queue : List (α × List α)} {ℓ : α → Nat}
    (inv : BfsInv g x toId visited queue ℓ) :
    ∀ qs, IsFgPath g x toId qs → ∃ e ∈ queue, e.2.length + 1 ≤ qs.length := by
  intro qs hqs
  have hq2 : 2 ≤ qs.length := isFgPath_length_two hqs inv.src_ne
  rcases inv.base with ⟨p, hpq, hpl⟩ | ⟨hxv, hlx⟩
  · exact ⟨(x, p), hpq, by simp; omega⟩
  · rcases bfs_chase_aux inv qs x 1 hxv hlx hqs with ⟨e, he, hle⟩
    exact ⟨e, he, by omega⟩

theorem bfsInv_skip {g : FlowGraph α} {x toId : α} {visited : List α}
    {id : α} {path : List α} {rest : List (α × List α)} {ℓ : α → Nat}
    (hid : id ∈ visited)
    (inv : BfsInv g x toId visited ((id, path) :: rest) ℓ) :
    BfsInv g x toId visited rest ℓ := by
  have hsorted := inv.sorted
  rw [List.map_cons] at hsorted
  have hlid : ℓ id ≤ path.length :=
    inv.lvl_le id hid (id, path) (List.mem_cons_self _ _)
  refine ⟨?_, (List.pairwise_cons.mp hsorted).2, ?_, inv.expanded_no_target,
    ?_, ?_, ?_, inv.target_not_visited, ?_, inv.src_ne⟩
  · exact fun e he => inv.valid e (List.mem_cons_of_mem _ he)
  · exact fun e1 h1 e2 h2 =>
      inv.span e1 (List.mem_cons_of_mem _ h1) e2 (List.mem_cons_of_mem _ h2)
  · intro v hv e he
    rcases inv.expanded_cover v hv e he with h | ⟨pv, hpq, hpl⟩
    · exact Or.inl h
    · rcases List.mem_cons.mp hpq with heq | hm
      · have h1 : e.eto = id := congrArg Prod.fst heq
        have h2 : pv = path := congrArg Prod.snd heq
        refine Or.inl ⟨h1 ▸ hid, ?_⟩
        rw [h1]
        calc ℓ id ≤ path.length := hlid
          _ = pv.length := by rw [h2]
          _ ≤ ℓ v + 1 := hpl
      · exact Or.inr ⟨pv, hm, hpl⟩
  · exact fun v hv e he => inv.lvl_le v hv e (List.mem_cons_of_mem _ he)
  · rcases inv.base with ⟨p, hpq, hpl⟩ | h
    · rcases List.mem_cons.mp hpq with heq | hm
      · have h1 : x = id := congrArg Prod.fst heq
        have h2 : p = path := congrArg Prod.snd heq
        refine Or.inr ⟨h1 ▸ hid, ?_⟩
        rw [h1]
        calc ℓ id ≤ path.length := hlid
          _ = p.length := by rw [h2]
          _ ≤ 1 := hpl
      · exact Or.inl ⟨p, hm, hpl⟩
    · exact Or.inr h
  · exact fun e he => inv.target_not_queued e (List.mem_cons_of_mem _ he)

theorem bfsInv_ok {g : FlowGraph α} {x toId : α} {visited : List α}
    {id : α} {path : List α} {rest pushes : List (α × List α)} {ℓ : α → Nat}
    (hid : id ∉ visited)
    (hexp : expandEdges toId path (id :: visited) (fgGet g id) = .ok pushes)
    (inv : BfsInv g x toId visited ((id, path) :: rest) ℓ) :
    BfsInv g x toId (id :: visited) (rest ++ pushes)
      (fun v => if v = id then path.length else ℓ v) := by
  rcases expandEdges_ok hexp with ⟨hi, hii, hiii⟩
  have hpush_len : ∀ q ∈ pushes, q.2.length = path.length + 1 := by
    intro q hq
    rcases hi q hq with ⟨e, _, _, h2, _⟩
    rw [h2]
    simp
  have hpush_ne_t : ∀ q ∈ pushes, q.1 ≠ toId := by
    intro q hq
    rcases hi q hq with ⟨e, he, h1, _, _⟩
    rw [h1]
    exact hii e he
  have hvalid_hd : IsFgPath g x id path :=
    inv.valid (id, path) (List.mem_cons_self _ _)
  have hsorted := inv.sorted
  rw [List.map_cons] at hsorted
  have hmin : ∀ b ∈ rest.map (fun e => e.2.length), path.length ≤ b :=
    (List.pairwise_cons.mp hsorted).1
  have hminr : ∀ e ∈ rest, path.length ≤ e.2.length := by
    intro e he
    exact hmin _ (List.mem_map_of_mem _ he)
  have hid_ne_t : id ≠ toId :=
    inv.target_not_queued (id, path) (List.mem_cons_self _ _)
  refine ⟨?_, ?_, ?_, ?_, ?_, ?_, ?_, ?_, ?_, inv.src_ne⟩
  · intro e he
    rcases List.mem_append.mp he with h | h
    · exact inv.valid e (List.mem_cons_of_mem _ h)
    · rcases hi e h with ⟨ed, hed, h1, h2, _⟩
      rw [h1, h2]
      exact isFgPath_append_step hvalid_hd ⟨ed, hed, rfl⟩
  · rw [List.map_append]
    rw [List.pairwise_append]
    refine ⟨(List.pairwise_cons.mp hsorted).2, ?_, ?_⟩
    · refine List.pairwise_of_forall_mem_list ?_
      intro a ha b hb
      rcases List.mem_map.mp ha with ⟨qa, hqa, rfl⟩
      rcases List.mem_map.mp hb with ⟨qb, hqb, rfl⟩
      rw [hpush_len qa hqa, hpush_len qb hqb]
    · intro a ha b hb
      rcases List.mem_map.mp ha with ⟨qa, hqa, rfl⟩
      rcases List.mem_map.mp hb with ⟨qb, hqb, rfl⟩
      rw [hpush_len qb hqb]
      exact inv.span qa (List.mem_cons_of_mem _ hqa) (id, path)
        (List.mem_cons_self _ _)
  · intro e1 h1 e2 h2
    rcases List.mem_append.mp h1 with ha | ha <;>
      rcases List.mem_append.mp h2 with hb | hb
    · exact inv.span e1 (List.mem_cons_of_mem _ ha) e2 (List.mem_cons_of_mem _ hb)
    · rw [hpush_len e2 hb]
      have h3 : e1.2.length ≤ path.length + 1 :=
        inv.span e1 (List.mem_cons_of_mem _ ha) (id, path)
          (List.mem_cons_self _ _)
      omega
    · rw [hpush_len e1 ha]
      have := hminr e2 hb
      omega
    · rw [hpush_len e1 ha, hpush_len e2 hb]
      omega
  · intro v hv e he
    rcases List.mem_cons.mp hv with rfl | hv
    · exact hii e he
    · exact inv.expanded_no_target v hv e he
  · intro v hv e he
    rcases List.mem_cons.mp hv with rfl | hv
    · simp only [if_pos rfl, if_true]
      rcases hiii e he with hm | hm
      · refine Or.inl ⟨hm, ?_⟩
        rcases List.mem_cons.mp hm with h1 | h1
        · simp [h1]
        · have hne : e.eto ≠ v := fun h => hid (h ▸ h1)
          rw [if_neg hne]
          have h3 : ℓ e.eto ≤ path.length :=
            inv.lvl_le e.eto h1 (v, path) (List.mem_cons_self _ _)
          omega
      · refine Or.inr ⟨path ++ [e.eto], List.mem_append_right _ hm, by simp⟩
    · have hvne : v ≠ id := fun h => hid (h ▸ hv)
      simp only [if_neg hvne]
      rcases inv.expanded_cover v hv e he with ⟨hm, hl⟩ | ⟨pv, hpq, hpl⟩
      · have hne : e.eto ≠ id := fun h => hid (h ▸ hm)
        refine Or.inl ⟨List.mem_cons_of_mem _ hm, ?_⟩
        rw [if_neg hne]
        exact hl
      · rcases List.mem_cons.mp hpq with heq | hm
        · have h1 : e.eto = id := congrArg Prod.fst heq
          have h2 : pv = path := congrArg Prod.snd heq
          refine Or.inl ⟨h1 ▸ List.mem_cons_self _ _, ?_⟩
          rw [if_pos h1, ← h2]
          exact hpl
        · exact Or.inr ⟨pv, List.mem_append_left _ hm, hpl⟩
  · intro v hv e he
    rcases List.mem_cons.mp hv with rfl | hv
    · rw [if_pos rfl]
      rcases List.mem_append.mp he with h | h
      · exact hminr e h
      · rw [hpush_len e h]
        omega
    · have hvne : v ≠ id := fun h => hid (h ▸ hv)
      rw [if_neg hvne]
      rcases List.mem_append.mp he with h | h
      · exact inv.lvl_le v hv e (List.mem_cons_of_mem _ h)
      · rw [hpush_len e h]
        have h3 : ℓ v ≤ path.length :=
          inv.lvl_le v hv (id, path) (List.mem_cons_self _ _)
        omega
  · rcases inv.base with ⟨p, hpq, hpl⟩ | ⟨hxv, hlx⟩
    · rcases List.mem_cons.mp hpq with heq | hm
      · have h1 : x = id := congrArg Prod.fst heq
        have h2 : p = path := congrArg Prod.snd heq
        refine Or.inr ⟨h1 ▸ List.mem_cons_self _ _, ?_⟩
        rw [if_pos h1, ← h2]
        exact hpl
      · exact Or.inl ⟨p, List.mem_append_left _ hm, hpl⟩
    · have hxne : x ≠ id := fun h => hid (h ▸ hxv)
      refine Or.inr ⟨List.mem_cons_of_mem _ hxv, ?_⟩
      rw [if_neg hxne]
      exact hlx
  · intro hmem
    rcases List.mem_cons.mp hmem with h | h
    · exact hid_ne_t h.symm
    · exact inv.target_not_visited h
  · intro e he
    rcases List.mem_append.mp he with h | h
    · exact inv.target_not_queued e (List.mem_cons_of_mem _ h)
    · exact hpush_ne_t e h

theorem findPathLoop_correct (g : FlowGraph α) (toId x : α) :
    ∀ (visited : List α) (queue : List (α × List α)),
    (∃ ℓ, BfsInv g x toId visited queue ℓ) →
    (∀ p, findPathLoop g toId visited queue = some p →
       IsFgPath g x toId p ∧ ∀ q, IsFgPath g x toId q → p.length ≤ q.length) ∧
    (findPathLoop g toId visited queue = none →
       ∀ q, ¬ IsFgPath g x toId q) := by
  intro visited queue
  induction visited, queue using findPathLoop.induct g toId with
  | case1 visited =>
    rintro ⟨ℓ, inv⟩
    constructor
    · intro p hp
      rw [findPathLoop_nil] at hp
      exact absurd hp (by simp)
    · intro _ q hq
      rcases bfs_chase inv q hq with ⟨e, he, _⟩
      exact absurd he (by simp)
  | case2 visited id path rest hid ih =>
    rintro ⟨ℓ, inv⟩
    rw [findPathLoop_cons_mem hid]
    exact ih ⟨ℓ, bfsInv_skip hid inv⟩
  | case3 visited id path rest hid pf hexp =>
    rintro ⟨ℓ, inv⟩
    rcases expandEdges_error hexp with ⟨⟨e, he, het⟩, hpf⟩
    constructor
    · intro p hp
      rw [findPathLoop_cons_error hid hexp] at hp
      have hppf : pf = p := Option.some.inj hp
      subst hppf
      subst hpf
      constructor
      · exact isFgPath_append_step
          (inv.valid (id, path) (List.mem_cons_self _ _)) ⟨e, he, het⟩
      · intro q hq
        rcases bfs_chase inv q hq with ⟨e', he', hle⟩
        have hmin : path.length ≤ e'.2.length := by
          rcases List.mem_cons.mp he' with heq | hm
          · rw [heq]
          · have hs := inv.sorted
            rw [List.map_cons] at hs
            exact (List.pairwise_cons.mp hs).1 _ (List.mem_map_of_mem _ hm)
        simp only [List.length_append, List.length_singleton]
        omega
    · intro hnone
      rw [findPathLoop_cons_error hid hexp] at hnone
      exact absurd hnone (by simp)
  | case4 visited id path rest hid pushes hexp ih =>
    rintro ⟨ℓ, inv⟩
    rw [findPathLoop_cons_ok hid hexp]
    exact ih ⟨_, bfsInv_ok hid hexp inv⟩

/-- C5: `findPath(x, x)` returns the singleton path `[x]`; for any target,
when `findPath` returns a path it is a sequence of entity ids starting at
`x` and ending at `y` in which every consecutive pair is joined by a direct
connection of the flow graph, and its length (hence its edge count) is
minimal among all such paths; and when it returns none, no such path
exists. -/
theorem c5_findPath_bfs_shortest (g : FlowGraph α) (x y : α) :
    findPath g x x = some [x] ∧
    (∀ p, findPath g x y = some p →
        IsFgPath g x y p ∧ ∀ q, IsFgPath g x y q → p.length ≤ q.length) ∧
    (findPath g x y = none → ∀ q, ¬ IsFgPath g x y q) := by
  refine ⟨by rw [findPath, if_pos rfl], ?_, ?_⟩ <;> by_cases hxy : x = y
  · subst hxy
    intro p hp
    rw [findPath, if_pos rfl] at hp
    have hpx : [x] = p := Option.some.inj hp
    subst hpx
    exact ⟨isFgPath_singleton g x, fun q hq => isFgPath_length_pos hq⟩
  · intro p hp
    rw [findPath, if_neg hxy] at hp
    have hinv : BfsInv g x y ([] : List α) [(x, [x])] (fun _ => 0) := by
      refine ⟨?_, ?_, ?_, ?_, ?_, ?_, ?_, ?_, ?_, hxy⟩
      · intro e he
        rcases List.mem_singleton.mp he with rfl
        exact isFgPath_singleton g x
      · simp
      · intro e1 h1 e2 h2
        rcases List.mem_singleton.mp h1 with rfl
        rcases List.mem_singleton.mp h2 with rfl
        simp
      · intro v hv
        exact absurd hv (List.not_mem_nil v)
      · intro v hv
        exact absurd hv (List.not_mem_nil v)
      · intro v hv
        exact absurd hv (List.not_mem_nil v)
      · exact Or.inl ⟨[x], List.mem_singleton_self _, by simp⟩
      · exact List.not_mem_nil y
      · intro e he
        rcases List.mem_singleton.mp he with rfl
        exact hxy
    exact (findPathLoop_correct g y x [] [(x, [x])] ⟨_, hinv⟩).1 p hp
  · subst hxy
    intro hn
    rw [findPath, if_pos rfl] at hn
    exact absurd hn (by simp)
  · intro hn
    rw [findPath, if_neg hxy] at hn
    have hinv : BfsInv g x y ([] : List α) [(x, [x])] (fun _ => 0) := by
      refine ⟨?_, ?_, ?_, ?_, ?_, ?_, ?_, ?_, ?_, hxy⟩
      · intro e he
        rcases List.mem_singleton.mp he with rfl
        exact isFgPath_singleton g x
      · simp
      · intro e1 h1 e2 h2
        rcases List.mem_singleton.mp h1 with rfl
        rcases List.mem_singleton.mp h2 with rfl
        simp
      · intro v hv
        exact absurd hv (List.not_mem_nil v)
      · intro v hv
        exact absurd hv (List.not_mem_nil v)
      · intro v hv
        exact absurd hv (List.not_mem_nil v)
      · exact Or.inl ⟨[x], List.mem_singleton_self _, by simp⟩
      · exact List.not_mem_nil y
      · intro e he
        rcases List.mem_singleton.mp he with rfl
        exact hxy
    exact (findPathLoop_correct g y x [] [(x, [x])] ⟨_, hinv⟩).2 hn
